import Mathlib

/-!
Verification development for the mailapp repository's synchronization and
threading core (`src/core`).

Shallow embedding conventions used throughout this file:

* `OffsetDateTime` values are modelled as `Int` (a timestamp); the Unix epoch
  is `0`.  Only ordering and equality of dates matter to the embedded code.
* Rust `HashMap`s are modelled as association lists with insertion-ordered
  iteration.  Rust leaves the iteration order of a `HashMap` unspecified;
  fixing it to insertion order is a deterministic refinement, and every
  theorem below that depends on iteration order only uses properties that are
  insensitive to the particular order (membership, single-key lookups) or
  explicitly talks about the refined order (the thread tie-break theorems,
  which are about the relative order produced by the final sort, whatever
  the pre-sort order was).
* Rust's stable `sort_by_key` is modelled by a stable insertion sort
  (`stSort`); a stable sort's output is uniquely determined by the key
  function and the input order, so this is faithful.
* Fallible operations (`AsgardResult<T>`) are modelled with `Except`.
  Mutations through `&mut self` that survive an early `?`-return are
  modelled by returning the updated state alongside the `Except` result.
-/

deriving instance DecidableEq for Except

namespace Mailapp

/-! ## Stable sort, modelling Rust's `slice::sort_by_key`

`stInsert le x l` inserts `x` in front of the first element `y` with
`le x y`; folding it from the right over the input list yields a stable
insertion sort: elements that compare equal keep their input order. -/

def stInsert (le : α → α → Bool) (x : α) : List α → List α
  | [] => [x]
  | y :: ys => if le x y then x :: y :: ys else y :: stInsert le x ys

def stSort (le : α → α → Bool) : List α → List α
  | [] => []
  | x :: xs => stInsert le x (stSort le xs)

/-- Comparison of sort keys drawn from `Int` (dates). -/
def keyLe (k : α → Int) (a b : α) : Bool := decide (k a ≤ k b)

/-- Rust `v.sort_by_key(|x| k(x))` for an integer-valued key. -/
def sortByKey (k : α → Int) (l : List α) : List α := stSort (keyLe k) l

/-- Rust `Ord` on `Option<T>`: `None` sorts before `Some`. -/
def optIntLe : Option Int → Option Int → Bool
  | none, _ => true
  | some _, none => false
  | some a, some b => decide (a ≤ b)

/-! ## Association lists modelling `HashMap<K, V>` -/

variable {κ : Type} [DecidableEq κ]

/-- Lookup of the first binding of `k` (bindings are unique by construction). -/
def alGet : List (κ × α) → κ → Option α
  | [], _ => none
  | p :: ps, k => if p.1 = k then some p.2 else alGet ps k

/-- `HashMap::insert`: replace an existing binding in place, else append. -/
def alInsertRep : List (κ × α) → κ → α → List (κ × α)
  | [], k, v => [(k, v)]
  | p :: ps, k, v => if p.1 = k then (k, v) :: ps else p :: alInsertRep ps k v

/-- `HashMap::remove`: drop the binding of `k`. -/
def alRemove : List (κ × α) → κ → List (κ × α)
  | [], _ => []
  | p :: ps, k => if p.1 = k then ps else p :: alRemove ps k

/-- Apply `f` to the value bound to `k` (no-op when `k` is absent). -/
def alModify : List (κ × α) → κ → (α → α) → List (κ × α)
  | [], _, _ => []
  | q :: qs, k, f => (if q.1 = k then (q.1, f q.2) else q) :: alModify qs k f

/-- Rust `map.entry(k).or_default().push(x)` for list-valued maps. -/
def alPush (m : List (String × List α)) (k : String) (x : α) :
    List (String × List α) :=
  if (alGet m k).isSome then alModify m k (fun v => v ++ [x])
  else m ++ [(k, [x])]

/-- Rust `map.entry(k).or_default().extend(xs)` for list-valued maps. -/
def alExtend (m : List (String × List α)) (k : String) (xs : List α) :
    List (String × List α) :=
  if (alGet m k).isSome then alModify m k (fun v => v ++ xs)
  else m ++ [(k, xs)]

/-! ## Data model (`src/core/src/types.rs`) -/

/-- Message metadata used for threading (`MsgMeta` in `types.rs`). -/
structure MsgMeta where
  uid : String
  folder : String
  date : Int
  fromAddr : String
  subject : String
  body_preview : String
  has_attachments : Bool
  is_read : Bool
  is_outgoing : Bool
  message_id : Option String
  in_reply_to : Option String
  references : List String
  server_thread_id : Option String
deriving DecidableEq, Repr

/-- Conversation thread (`Thread` in `types.rs`). -/
structure Thread where
  id : String
  subject : String
  messages : List MsgMeta
  last_date : Int
  any_unread : Bool
  last_is_outgoing_reply : Bool
  has_attachments : Bool
deriving DecidableEq, Repr

/-- Constructor `Thread::new` from `types.rs`: derives the summary fields
from the message list (`UNIX_EPOCH` is modelled as `0`). -/
def Thread.new (id subject : String) (messages : List MsgMeta) : Thread :=
  { id := id
    subject := subject
    messages := messages
    any_unread := messages.any (fun m => !m.is_read)
    has_attachments := messages.any (fun m => m.has_attachments)
    last_date :=
      match messages.getLast? with
      | some m => m.date
      | none => 0
    last_is_outgoing_reply :=
      match messages.getLast? with
      | some m => m.is_outgoing && (m.in_reply_to.isSome || m.subject.startsWith "Re:")
      | none => false }

/-! ## Subject normalization (`threading.rs::normalize_subject`)

The two regexes of the source are embedded directly as character-list
functions.  `Regex::replace` with an anchored pattern either removes one
leading match or leaves the string unchanged; the translation below follows
the source regexes `^\s*\[[^\]]+\]\s*` and
`^((?i:re|fw|fwd|sv|aw|antw|rv)\s*:\s*)+` (the `regex` crate uses
leftmost-first alternation semantics, mirrored by trying the alternatives
in source order).  Whitespace is Rust `char::is_whitespace` restricted to
its ASCII subset, which covers every string handled in this development. -/

def trimChars (cs : List Char) : List Char :=
  ((cs.dropWhile (fun c => c.isWhitespace)).reverse.dropWhile
    (fun c => c.isWhitespace)).reverse

/-- Strip one leading bracketed tag, per regex `^\s*\[[^\]]+\]\s*`. -/
def stripListTag (cs : List Char) : List Char :=
  let rest := cs.dropWhile (fun c => c.isWhitespace)
  match rest with
  | '[' :: r2 =>
    let inner := r2.takeWhile (fun c => !(c = ']'))
    let r3 := r2.dropWhile (fun c => !(c = ']'))
    match r3 with
    | ']' :: r4 => if inner.isEmpty then cs else r4.dropWhile (fun c => c.isWhitespace)
    | _ => cs
  | _ => cs

/-- The reply/forward alternatives of the source regex, in source order. -/
def rfTokens : List (List Char) :=
  [['r', 'e'], ['f', 'w'], ['f', 'w', 'd'], ['s', 'v'], ['a', 'w'],
   ['a', 'n', 't', 'w'], ['r', 'v']]

/-- Case-insensitive match of `tok` at the head of `cs`; returns the rest. -/
def matchTokenAt : List Char → List Char → Option (List Char)
  | [], rest => some rest
  | t :: ts, c :: rest => if c.toLower = t then matchTokenAt ts rest else none
  | _ :: _, [] => none

/-- Match `\s*:\s*` at the head of `cs`; returns the rest. -/
def matchSepAfter (cs : List Char) : Option (List Char) :=
  match cs.dropWhile (fun c => c.isWhitespace) with
  | ':' :: r2 => some (r2.dropWhile (fun c => c.isWhitespace))
  | _ => none

/-- Try each alternative in order; a token whose `:` is missing falls
through to the next alternative, as with leftmost-first regex matching. -/
def tryTokens : List (List Char) → List Char → Option (List Char)
  | [], _ => none
  | tok :: toks, cs =>
    match matchTokenAt tok cs with
    | some rest =>
      match matchSepAfter rest with
      | some r2 => some r2
      | none => tryTokens toks cs
    | none => tryTokens toks cs

/-- The `(...)+` repetition: strip reply/forward tokens while they match.
Each successful match consumes at least a two-character token and a colon,
so `cs.length` steps of fuel always suffice. -/
def stripReTokens (fuel : Nat) (cs : List Char) : List Char :=
  match fuel with
  | 0 => cs
  | Nat.succ f =>
    match tryTokens rfTokens cs with
    | some rest => stripReTokens f rest
    | none => cs

/-- Rust `str::split_whitespace` on a character list. -/
def splitWsAux : List Char → List Char → List (List Char)
  | [], acc => if acc.isEmpty then [] else [acc.reverse]
  | c :: cs, acc =>
    if c.isWhitespace then
      if acc.isEmpty then splitWsAux cs [] else acc.reverse :: splitWsAux cs []
    else splitWsAux cs (c :: acc)

def splitWs (cs : List Char) : List (List Char) := splitWsAux cs []

/-- `normalize_subject` from `threading.rs`: trim, strip one `[...]` tag,
strip leading reply/forward tokens, collapse whitespace, lowercase. -/
def normalize_subject (raw : String) : String :=
  let s1 := trimChars raw.data
  let s2 := stripListTag s1
  let s3 := stripReTokens s2.length s2
  String.mk ((List.intercalate [' '] (splitWs s3)).map Char.toLower)

/-- `canonical_subject` from `threading.rs`. -/
def canonical_subject (s : String) : String := normalize_subject s

/-! ## JWZ threading (`threading.rs`) -/

/-- Node of the JWZ algorithm (`struct Node` in `threading.rs`). -/
structure Node where
  mid : String
  msg : Option MsgMeta
  parent : Option String
  children : List String
deriving DecidableEq, Repr

def emptyNode (id : String) : Node :=
  { mid := id, msg := none, parent := none, children := [] }

/-- The `ensure` closure: `nodes.entry(id).or_insert(Node {..})`. -/
def ensureNode (nodes : List (String × Node)) (id : String) :
    List (String × Node) :=
  if (alGet nodes id).isSome then nodes else nodes ++ [(id, emptyNode id)]

def setMsg (nodes : List (String × Node)) (mid : String) (m : MsgMeta) :
    List (String × Node) :=
  alModify nodes mid (fun n => { n with msg := some m })

/-- Pass 1 of `jwz_threads`: create a node per own Message-ID (attaching the
message) and per referenced id. -/
def pass1Step (nodes : List (String × Node)) (m : MsgMeta) :
    List (String × Node) :=
  let nodes :=
    match m.message_id with
    | some mid => setMsg (ensureNode nodes mid) mid m
    | none => nodes
  m.references.foldl ensureNode nodes

def pass1 (msgs : List MsgMeta) : List (String × Node) :=
  msgs.foldl pass1Step []

/-- The parent reference: last entry of References, else In-Reply-To. -/
def parentRef (m : MsgMeta) : Option String :=
  match m.references.getLast? with
  | some r => some r
  | none => m.in_reply_to

/-- Pass 2 of `jwz_threads`: link a message to its parent when the parent
node already exists. -/
def pass2Step (nodes : List (String × Node)) (m : MsgMeta) :
    List (String × Node) :=
  match m.message_id with
  | none => nodes
  | some mid =>
    match parentRef m with
    | none => nodes
    | some pid =>
      if (alGet nodes pid).isSome then
        alModify
          (alModify nodes mid (fun n => { n with parent := some pid }))
          pid (fun n => { n with children := n.children ++ [mid] })
      else nodes

def pass2 (nodes : List (String × Node)) (msgs : List MsgMeta) :
    List (String × Node) :=
  msgs.foldl pass2Step nodes

/-- Roots: nodes without a parent that carry a real message. -/
def rootsOf (nodes : List (String × Node)) : List String :=
  nodes.filterMap
    (fun p => if p.2.parent.isNone && p.2.msg.isSome then some p.2.mid else none)

/-- Sort key used for a node's children: the child's message date, `None`
when the child is a placeholder (Rust `Option<OffsetDateTime>` ordering). -/
def childKey (nodes : List (String × Node)) (cid : String) : Option Int :=
  ((alGet nodes cid).bind (fun c => c.msg)).map (fun m => m.date)

/-- `collect_inorder`: emit the node's message, then its children ordered by
date ascending.  The Rust function recurses on a children forest whose depth
is bounded by the number of nodes (every child edge points from a node to a
message node with that node as its unique parent), so `nodes.length + 1`
units of fuel reproduce every terminating run of the source. -/
def collect_inorder (nodes : List (String × Node)) :
    Nat → String → List MsgMeta
  | 0, _ => []
  | Nat.succ fuel, id =>
    match alGet nodes id with
    | none => []
    | some n =>
      let here : List MsgMeta :=
        match n.msg with
        | some m => [m]
        | none => []
      let childs :=
        stSort (fun a b => optIntLe (childKey nodes a) (childKey nodes b))
          n.children
      childs.foldl (fun acc c => acc ++ collect_inorder nodes fuel c) here

/-- One step of the orphan pass of `jwz_threads`. -/
def orphanStep (seen : List String) (out : List (String × List MsgMeta))
    (p : String × Node) : List (String × List MsgMeta) :=
  match p.2.msg with
  | none => out
  | some m =>
    let isSeen :=
      match m.message_id with
      | some x => seen.contains x
      | none => false
    if isSeen then out
    else
      let tid :=
        match m.message_id with
        | some x => x
        | none => "midless-" ++ m.uid
      alPush out tid m

/-- `jwz_threads` from `threading.rs`. -/
def jwz_threads (messages : List MsgMeta) : List (String × List MsgMeta) :=
  let nodes := pass2 (pass1 messages) messages
  let roots := rootsOf nodes
  let out := roots.foldl
    (fun out root =>
      alInsertRep out root (collect_inorder nodes (nodes.length + 1) root)) []
  let seen := (out.foldl (fun acc p => acc ++ p.2) []).filterMap
    (fun m => m.message_id)
  nodes.foldl (orphanStep seen) out

/-- Bucket-to-thread conversion, step 3 of `group_into_threads`: sort the
bucket by date and build the `Thread`.  The source computes `any_unread`,
`has_attachments`, `last_is_outgoing_reply` and `last_date` into unused
local bindings and then calls `Thread::new`, which recomputes them; only
the `Thread::new` call is observable. -/
def thread_of_bucket (p : String × List MsgMeta) : Thread :=
  let v := sortByKey (fun m => m.date) p.2
  let subject := canonical_subject
    (match v.getLast? with
     | some m => m.subject
     | none => "")
  Thread.new p.1 subject v

/-- The thread list as it stands before the final sort of
`group_into_threads` (phases 1 to 3 of the source function). -/
def group_into_threads_unsorted (msgs : List MsgMeta) : List Thread :=
  let sorted := sortByKey (fun m => m.date) msgs
  let parts := sorted.partition (fun m => m.server_thread_id.isSome)
  let buckets0 := parts.1.foldl
    (fun b m =>
      alPush b
        (match m.server_thread_id with
         | some t => t
         | none => "") m) []
  let buckets := (jwz_threads parts.2).foldl
    (fun b p => alExtend b p.1 p.2) buckets0
  buckets.map thread_of_bucket

/-- `group_into_threads` from `threading.rs`: the bucket threads, sorted by
`last_date` ascending with the stable `sort_by_key` and then reversed. -/
def group_into_threads (msgs : List MsgMeta) : List Thread :=
  (sortByKey Thread.last_date (group_into_threads_unsorted msgs)).reverse

/-! ## Concrete fixtures, mirroring `create_test_message` of the source's
test module -/

def mkMsg (uid : String) (date : Int) (mid irt : Option String)
    (refs : List String) (tid : Option String) (subj : String) : MsgMeta :=
  { uid := uid, folder := "INBOX", date := date, fromAddr := "alice@example.com",
    subject := subj, body_preview := "Test message body",
    has_attachments := false, is_read := false, is_outgoing := false,
    message_id := mid, in_reply_to := irt, references := refs,
    server_thread_id := tid }

/-- Message A of the chain scenario: no references, no In-Reply-To. -/
def chainA : MsgMeta := mkMsg "1" 1 (some "<a@x>") none [] none "Original"

/-- Message B of the chain scenario: In-Reply-To = A, empty References. -/
def chainB : MsgMeta :=
  mkMsg "2" 2 (some "<b@x>") (some "<a@x>") [] none "Re: Original"

/-- Message C of the chain scenario: References = [A, B]. -/
def chainC : MsgMeta :=
  mkMsg "3" 3 (some "<c@x>") (some "<b@x>") ["<a@x>", "<b@x>"] none "Re: Original"

/-- A message with a dangling parent reference and no Message-ID of its own. -/
def midlessMsg : MsgMeta := mkMsg "7" 1 none (some "<gone@x>") [] none "NoMid"

/-- Two unrelated single-message conversations with the same date. -/
def tieMsgP : MsgMeta := mkMsg "1" 5 (some "<p@x>") none [] none "P"

def tieMsgQ : MsgMeta := mkMsg "2" 5 (some "<q@x>") none [] none "Q"

/-! ## Claim C3: the JWZ chain scenario -/

/-- C3 (confirmed): for the three-message input where A has no references,
B has In-Reply-To = A and no References, and C has References = [A, B],
none carrying a `server_thread_id`, `group_into_threads` returns exactly one
thread whose message list is [A, B, C] in that order. -/
theorem c3_chain_threads_in_order :
    group_into_threads [chainA, chainB, chainC] =
      [Thread.new "<a@x>" "original" [chainA, chainB, chainC]] := by
  decide

/-! ## Claim C8: subject normalization -/

/-- C8 (confirmed): `normalize_subject` strips one leading bracketed tag,
then one-or-more leading reply/forward tokens, collapses whitespace and
lowercases; in particular it maps "Re: Re: Original Subject" to
"original subject" and "[List] Fwd: Important" to "important". -/
theorem c8_normalize_subject_examples :
    normalize_subject "Re: Re: Original Subject" = "original subject" ∧
    normalize_subject "[List] Fwd: Important" = "important" := by
  constructor
  · decide
  · decide

/-! ## Stable-sort lemmas for the final thread sort -/

theorem mem_stInsert {le : α → α → Bool} {x a : α} {l : List α} :
    a ∈ stInsert le x l ↔ a = x ∨ a ∈ l := by
  induction l with
  | nil => simp [stInsert]
  | cons y ys ih =>
    by_cases h : le x y = true
    · simp only [stInsert, if_pos h, List.mem_cons]
    · simp only [stInsert, if_neg h, List.mem_cons, ih]
      tauto

theorem mem_stSort {le : α → α → Bool} {a : α} {l : List α} :
    a ∈ stSort le l ↔ a ∈ l := by
  induction l with
  | nil => simp [stSort]
  | cons x xs ih => simp [stSort, mem_stInsert, ih]

theorem sublist_stInsert (le : α → α → Bool) (x : α) (l : List α) :
    List.Sublist l (stInsert le x l) := by
  induction l with
  | nil => simp [stInsert]
  | cons y ys ih =>
    by_cases h : le x y = true
    · simp only [stInsert, if_pos h]
      exact List.Sublist.cons x (List.Sublist.refl (y :: ys))
    · simp only [stInsert, if_neg h]
      exact List.Sublist.cons₂ y ih

theorem sublist_trans_stInsert {le : α → α → Bool} {x : α} {l m : List α}
    (h : List.Sublist l m) : List.Sublist l (stInsert le x m) :=
  h.trans (sublist_stInsert le x m)

theorem stInsert_pair {le : α → α → Bool} {a b : α} {m : List α}
    (hab : le a b = true) (hb : b ∈ m) :
    List.Sublist [a, b] (stInsert le a m) := by
  induction m with
  | nil => cases hb
  | cons y ys ih =>
    by_cases h : le a y = true
    · simp only [stInsert, if_pos h]
      exact List.Sublist.cons₂ a (List.singleton_sublist.mpr hb)
    · simp only [stInsert, if_neg h]
      rcases List.mem_cons.mp hb with hby | hbys
      · exfalso
        rw [hby] at hab
        exact h hab
      · exact List.Sublist.cons y (ih hbys)

theorem stSort_pair {le : α → α → Bool} {a b : α} {l : List α}
    (hab : le a b = true) (h : List.Sublist [a, b] l) :
    List.Sublist [a, b] (stSort le l) := by
  induction l with
  | nil => cases h
  | cons x xs ih =>
    cases h with
    | cons _ h2 =>
      exact sublist_trans_stInsert (ih h2)
    | cons₂ _ h2 =>
      exact stInsert_pair hab (mem_stSort.mpr (List.singleton_sublist.mp h2))

theorem pairwise_stInsert {le : α → α → Bool}
    (total : ∀ a b, le a b = false → le b a = true)
    (trans : ∀ a b c, le a b = true → le b c = true → le a c = true)
    {x : α} {l : List α} (h : l.Pairwise (fun a b => le a b = true)) :
    (stInsert le x l).Pairwise (fun a b => le a b = true) := by
  induction l with
  | nil => simp [stInsert]
  | cons y ys ih =>
    rcases List.pairwise_cons.mp h with ⟨hy, hys⟩
    by_cases hxy : le x y = true
    · simp only [stInsert, if_pos hxy]
      refine List.pairwise_cons.mpr ⟨?_, h⟩
      intro z hz
      rcases List.mem_cons.mp hz with rfl | hzys
      · exact hxy
      · exact trans x y z hxy (hy z hzys)
    · simp only [stInsert, if_neg hxy]
      refine List.pairwise_cons.mpr ⟨?_, ih hys⟩
      intro z hz
      rcases mem_stInsert.mp hz with rfl | hzys
      · exact total z y (eq_false_of_ne_true hxy)
      · exact hy z hzys

theorem pairwise_stSort {le : α → α → Bool}
    (total : ∀ a b, le a b = false → le b a = true)
    (trans : ∀ a b c, le a b = true → le b c = true → le a c = true)
    (l : List α) :
    (stSort le l).Pairwise (fun a b => le a b = true) := by
  induction l with
  | nil => simp [stSort]
  | cons x xs ih => exact pairwise_stInsert total trans ih

theorem keyLe_total (k : α → Int) :
    ∀ a b, keyLe k a b = false → keyLe k b a = true := by
  intro a b h
  simp only [keyLe, decide_eq_false_iff_not, not_le] at h
  simp only [keyLe, decide_eq_true_eq]
  exact le_of_lt h

theorem keyLe_trans (k : α → Int) :
    ∀ a b c, keyLe k a b = true → keyLe k b c = true → keyLe k a c = true := by
  intro a b c hab hbc
  simp only [keyLe, decide_eq_true_eq] at hab hbc ⊢
  exact le_trans hab hbc

theorem sortByKey_pairwise (k : α → Int) (l : List α) :
    (sortByKey k l).Pairwise (fun a b => k a ≤ k b) := by
  have h := pairwise_stSort (keyLe_total k) (keyLe_trans k) l
  refine List.Pairwise.imp ?_ h
  intro a b hab
  exact of_decide_eq_true hab

theorem sortByKey_pair {k : α → Int} {a b : α} {l : List α}
    (hab : k a ≤ k b) (h : List.Sublist [a, b] l) :
    List.Sublist [a, b] (sortByKey k l) :=
  stSort_pair (decide_eq_true hab) h

theorem mem_sortByKey {k : α → Int} {a : α} {l : List α} :
    a ∈ sortByKey k l ↔ a ∈ l := mem_stSort

/-! ## Claim C4: the final thread sort -/

/-- C4 (counterexample): the final sort of `group_into_threads` sorts
ascending with a stable sort and then reverses, so two threads with equal
`last_date` come out in the reverse of their pre-sort relative order, not in
the same order.  Here the thread of `tieMsgP` precedes the thread of
`tieMsgQ` before the sort, and follows it in the output. -/
theorem c4_tie_order_counterexample :
    group_into_threads_unsorted [tieMsgP, tieMsgQ] =
      [Thread.new "<p@x>" "p" [tieMsgP], Thread.new "<q@x>" "q" [tieMsgQ]] ∧
    group_into_threads [tieMsgP, tieMsgQ] =
      [Thread.new "<q@x>" "q" [tieMsgQ], Thread.new "<p@x>" "p" [tieMsgP]] ∧
    (Thread.new "<p@x>" "p" [tieMsgP]).last_date =
      (Thread.new "<q@x>" "q" [tieMsgQ]).last_date ∧
    Thread.new "<p@x>" "p" [tieMsgP] ≠ Thread.new "<q@x>" "q" [tieMsgQ] := by
  refine ⟨by decide, by decide, by decide, by decide⟩

/-- C4 (amended): the output of `group_into_threads` is sorted by
`last_date` descending, and two threads with equal `last_date` appear in the
reverse of the relative order they had before the final sort (ascending
stable sort followed by `reverse()`). -/
theorem c4_sorted_desc_ties_reversed (msgs : List MsgMeta) :
    (group_into_threads msgs).Pairwise
      (fun a b => b.last_date ≤ a.last_date) ∧
    ∀ t1 t2 : Thread, t1.last_date = t2.last_date →
      List.Sublist [t1, t2] (group_into_threads_unsorted msgs) →
      List.Sublist [t2, t1] (group_into_threads msgs) := by
  constructor
  · rw [group_into_threads, List.pairwise_reverse]
    exact sortByKey_pairwise Thread.last_date (group_into_threads_unsorted msgs)
  · intro t1 t2 hdate hsub
    have h2 : List.Sublist [t1, t2]
        (sortByKey Thread.last_date (group_into_threads_unsorted msgs)) :=
      sortByKey_pair (le_of_eq hdate) hsub
    have h3 := h2.reverse
    simpa [group_into_threads] using h3

/-- Witness for `c4_sorted_desc_ties_reversed` at the tie fixture. -/
theorem c4_sorted_desc_ties_reversed_witness :
    List.Sublist
      [Thread.new "<q@x>" "q" [tieMsgQ], Thread.new "<p@x>" "p" [tieMsgP]]
      (group_into_threads [tieMsgP, tieMsgQ]) :=
  (c4_sorted_desc_ties_reversed [tieMsgP, tieMsgQ]).2
    (Thread.new "<p@x>" "p" [tieMsgP]) (Thread.new "<q@x>" "q" [tieMsgQ])
    (by decide) (by decide)

/-! ## Claim C7, counterexample part -/

/-- C7 (counterexample): a message without a `server_thread_id` whose parent
reference dangles and which has no Message-ID of its own is silently dropped
by `group_into_threads` — it does not become a singleton thread under a
synthetic id. -/
theorem c7_midless_dropped_counterexample :
    midlessMsg.server_thread_id = none ∧
    midlessMsg.message_id = none ∧
    parentRef midlessMsg = some "<gone@x>" ∧
    group_into_threads [midlessMsg] = [] := by
  refine ⟨rfl, rfl, by decide, by decide⟩

/-! ## Lemmas about the association-list operations -/

theorem alGet_append_left {l1 l2 : List (κ × α)} {k : κ} {v : α}
    (h : alGet l1 k = some v) : alGet (l1 ++ l2) k = some v := by
  induction l1 with
  | nil => cases h
  | cons q qs ih =>
    by_cases hq : q.1 = k
    · simp only [alGet, if_pos hq] at h ⊢
      exact h
    · simp only [alGet, if_neg hq] at h ⊢
      exact ih h

theorem alGet_append_right {l1 l2 : List (κ × α)} {k : κ}
    (h : alGet l1 k = none) : alGet (l1 ++ l2) k = alGet l2 k := by
  induction l1 with
  | nil => rfl
  | cons q qs ih =>
    by_cases hq : q.1 = k
    · simp only [alGet, if_pos hq] at h
      cases h
    · simp only [alGet, if_neg hq] at h ⊢
      exact ih h

theorem alGet_alModify_ne {l : List (κ × α)} {k k' : κ} {f : α → α}
    (h : k' ≠ k) : alGet (alModify l k f) k' = alGet l k' := by
  induction l with
  | nil => rfl
  | cons q qs ih =>
    by_cases hq : q.1 = k
    · have hqk : ¬ q.1 = k' := by
        rw [hq]
        exact fun he => h he.symm
      simp only [alModify, if_pos hq, alGet, if_neg hqk]
      exact ih
    · simp only [alModify, if_neg hq, alGet]
      by_cases hq' : q.1 = k'
      · simp only [if_pos hq']
      · simp only [if_neg hq']
        exact ih

theorem alGet_alModify_self {l : List (κ × α)} {k : κ} {f : α → α} :
    alGet (alModify l k f) k = (alGet l k).map f := by
  induction l with
  | nil => rfl
  | cons q qs ih =>
    by_cases hq : q.1 = k
    · simp only [alModify, if_pos hq, alGet, if_pos hq]
      rfl
    · simp only [alModify, if_neg hq, alGet, if_neg hq]
      exact ih

theorem alGet_ensure {l : List (String × α)} {id k : String} {v : α} :
    alGet (if (alGet l id).isSome then l else l ++ [(id, v)]) k =
      match alGet l k with
      | some n => some n
      | none => if k = id then some v else none := by
  by_cases h : (alGet l id).isSome
  · rw [if_pos h]
    cases hk : alGet l k with
    | some n => rfl
    | none =>
      by_cases hki : k = id
      · rw [hki] at hk
        rw [hk] at h
        cases h
      · simp [hki]
  · rw [if_neg h]
    cases hk : alGet l k with
    | some n => simp [alGet_append_left hk]
    | none =>
      rw [alGet_append_right hk]
      by_cases hki : k = id
      · simp [alGet, hki]
      · simp only [alGet, if_neg hki, if_neg (fun hc : id = k => hki hc.symm)]

theorem alGet_alInsertRep_self {l : List (κ × α)} {k : κ} {v : α} :
    alGet (alInsertRep l k v) k = some v := by
  induction l with
  | nil => simp [alInsertRep, alGet]
  | cons q qs ih =>
    by_cases hq : q.1 = k
    · simp [alInsertRep, alGet, hq]
    · simp [alInsertRep, alGet, hq, ih]

theorem alGet_alInsertRep_ne {l : List (κ × α)} {k k' : κ} {v : α}
    (h : k' ≠ k) : alGet (alInsertRep l k v) k' = alGet l k' := by
  have hks : k ≠ k' := Ne.symm h
  induction l with
  | nil =>
    simp [alInsertRep, alGet, hks]
  | cons q qs ih =>
    by_cases hq : q.1 = k
    · have hqk : ¬ q.1 = k' := by
        rw [hq]
        exact hks
      simp [alInsertRep, alGet, hq, hqk, hks]
    · by_cases hq' : q.1 = k'
      · simp [alInsertRep, alGet, hq, hq', h, hks]
      · simp [alInsertRep, alGet, hq, hq', ih]

theorem alInsertRep_mem_sub {l : List (κ × α)} {k0 : κ} {v0 : α}
    {q : κ × α} (h : q ∈ alInsertRep l k0 v0) :
    q ∈ l ∨ q = (k0, v0) := by
  induction l with
  | nil =>
    simp only [alInsertRep, List.mem_singleton] at h
    exact Or.inr h
  | cons r rs ih =>
    by_cases hr : r.1 = k0
    · simp only [alInsertRep, if_pos hr, List.mem_cons] at h
      rcases h with h | h
      · right
        rw [h]
      · left
        exact List.mem_cons_of_mem r h
    · simp only [alInsertRep, if_neg hr, List.mem_cons] at h
      rcases h with h | h
      · left
        rw [h]
        exact List.mem_cons_self r rs
      · rcases ih h with h2 | h2
        · left
          exact List.mem_cons_of_mem r h2
        · right
          exact h2

theorem alGet_mem {l : List (κ × α)} {k : κ} {v : α}
    (h : alGet l k = some v) : (k, v) ∈ l := by
  induction l with
  | nil => cases h
  | cons q qs ih =>
    by_cases hq : q.1 = k
    · simp only [alGet, if_pos hq] at h
      obtain ⟨k1, v1⟩ := q
      simp only at hq
      cases h
      rw [hq]
      exact List.mem_cons_self _ _
    · simp only [alGet, if_neg hq] at h
      exact List.mem_cons_of_mem q (ih h)

theorem alGet_split {l : List (κ × α)} {k : κ} {v : α}
    (h : alGet l k = some v) :
    ∃ pre post, l = pre ++ (k, v) :: post ∧ ∀ q ∈ pre, q.1 ≠ k := by
  induction l with
  | nil => cases h
  | cons q qs ih =>
    by_cases hq : q.1 = k
    · simp only [alGet, if_pos hq] at h
      obtain ⟨k1, v1⟩ := q
      simp only at hq
      cases h
      refine ⟨[], qs, by simp [hq], ?_⟩
      intro q hq2
      cases hq2
    · simp only [alGet, if_neg hq] at h
      obtain ⟨pre, post, heq, hpre⟩ := ih h
      refine ⟨q :: pre, post, by rw [heq]; rfl, ?_⟩
      intro r hr
      rcases List.mem_cons.mp hr with rfl | hr2
      · exact hq
      · exact hpre r hr2

def keysOf (l : List (κ × α)) : List κ := l.map (fun p => p.1)

theorem alGet_isSome_iff_mem_keys {l : List (κ × α)} {k : κ} :
    (alGet l k).isSome ↔ k ∈ keysOf l := by
  induction l with
  | nil => simp [alGet, keysOf]
  | cons q qs ih =>
    by_cases hq : q.1 = k
    · simp [alGet, keysOf, hq]
    · have hg : alGet (q :: qs) k = alGet qs k := by
        simp [alGet, hq]
      rw [hg, ih]
      show k ∈ keysOf qs ↔ k ∈ keysOf (q :: qs)
      simp only [keysOf, List.map_cons, List.mem_cons]
      constructor
      · intro hm
        exact Or.inr hm
      · rintro (hm | hm)
        · exact absurd hm.symm hq
        · exact hm

theorem keysOf_alModify {l : List (κ × α)} {k : κ} {f : α → α} :
    keysOf (alModify l k f) = keysOf l := by
  induction l with
  | nil => rfl
  | cons q qs ih =>
    by_cases hq : q.1 = k
    · simp only [alModify, if_pos hq, keysOf, List.map_cons] at ih ⊢
      rw [ih]
    · simp only [alModify, if_neg hq, keysOf, List.map_cons] at ih ⊢
      rw [ih]

theorem nodup_keys_alInsertRep {l : List (κ × α)} {k : κ} {v : α}
    (h : (keysOf l).Nodup) : (keysOf (alInsertRep l k v)).Nodup := by
  induction l with
  | nil => simp [alInsertRep, keysOf]
  | cons q qs ih =>
    simp only [keysOf, List.map_cons, List.nodup_cons] at h
    by_cases hq : q.1 = k
    · simp only [alInsertRep, if_pos hq, keysOf, List.map_cons,
        List.nodup_cons]
      rw [← hq]
      exact h
    · simp only [alInsertRep, if_neg hq, keysOf, List.map_cons,
        List.nodup_cons]
      constructor
      · intro hmem
        have h2 : k ≠ q.1 := fun hc => hq hc.symm
        have h3 : (alGet (alInsertRep qs k v) q.1).isSome := by
          rw [alGet_isSome_iff_mem_keys]
          exact hmem
        rw [alGet_alInsertRep_ne hq] at h3
        rw [alGet_isSome_iff_mem_keys] at h3
        exact h.1 h3
      · exact ih h.2

theorem mem_alGet_of_nodup {l : List (κ × α)} {k : κ} {v : α}
    (hnd : (keysOf l).Nodup) (h : (k, v) ∈ l) : alGet l k = some v := by
  induction l with
  | nil => cases h
  | cons q qs ih =>
    simp only [keysOf, List.map_cons, List.nodup_cons] at hnd
    rcases List.mem_cons.mp h with rfl | h2
    · simp [alGet]
    · by_cases hq : q.1 = k
      · exfalso
        apply hnd.1
        rw [hq]
        have h3 : (k, v) ∈ qs := h2
        have h4 : k ∈ keysOf qs := by
          simp only [keysOf, List.mem_map]
          exact ⟨(k, v), h3, rfl⟩
        exact h4
      · simp only [alGet, if_neg hq]
        exact ih hnd.2 h2

theorem mem_foldl_append {β γ : Type} {f : γ → List β} {l : List γ}
    {init : List β} {y : β} :
    y ∈ l.foldl (fun acc c => acc ++ f c) init ↔
      y ∈ init ∨ ∃ c ∈ l, y ∈ f c := by
  induction l generalizing init with
  | nil => simp
  | cons c cs ih =>
    simp only [List.foldl_cons, ih, List.mem_append, List.mem_cons]
    constructor
    · rintro (⟨h | h⟩ | ⟨c2, hc2, hy⟩)
      · exact Or.inl h
      · exact Or.inr ⟨c, Or.inl rfl, h⟩
      · exact Or.inr ⟨c2, Or.inr hc2, hy⟩
    · rintro (h | ⟨c2, hc2 | hc2, hy⟩)
      · exact Or.inl (Or.inl h)
      · exact Or.inl (Or.inr (hc2 ▸ hy))
      · exact Or.inr ⟨c2, hc2, hy⟩

/-! ## Error type (`src/core/src/error.rs`)

Only the variants exercised by the embedded code are modelled. -/

inductive AsgardError where
  | notFound (msg : String)
  | unsupported (msg : String)
  | invalidState (msg : String)
  | network (msg : String)
  | storage (msg : String)
  | io (msg : String)
deriving DecidableEq, Repr

/-! ## Content cache (`src/core/src/storage/cache.rs`)

Modelling decisions:

* Byte strings are `List Nat`.
* SHA-256 is modelled as an injective content fingerprint: `calculate_hash`
  is the identity on the byte string.  Every property proved below depends
  only on the hash being collision-free.
* File paths produced by `get_file_path` are a structured type mirroring the
  four branches of the source function; the key's characters stand in for
  its UTF-8 bytes.
* The filesystem is a pair of maps, path → inode and inode → bytes, so that
  `std::fs::hard_link` (second link to the same inode; fails when the
  destination exists) and `std::fs::remove_file` (drops one link, content
  stays reachable through remaining links) behave as on a real filesystem.
* `OffsetDateTime::now_utc()` is passed in as an explicit `t : Int` argument
  at each operation.
* `CacheStats.hit_ratio` is an `f64` display value; floating point is not
  modelled and the field is omitted.  `update_stats_hit`/`update_stats_miss`
  are modelled on the counters they touch. -/

/-- The result of `Cache::get_file_path`: one of the four directory layouts,
carrying the two-character shard prefix and the full key hash. -/
inductive CachePath where
  | messages (subdir : List Nat) (hash : List Nat)
  | attachments (subdir : List Nat) (hash : List Nat)
  | temp (hash : List Nat)
  | root (hash : List Nat)
deriving DecidableEq, Repr

/-- SHA-256, modelled as an injective fingerprint of the bytes. -/
def calculate_hash (data : List Nat) : List Nat := data

/-- The bytes of a key string (`key.as_bytes()`), one per character. -/
def strBytes (s : String) : List Nat := s.data.map Char.toNat

/-- `Cache::get_file_path`: shard by the first two characters of the key
hash beneath the subdirectory selected by the key prefix. -/
def get_file_path (key : String) : CachePath :=
  let hash := calculate_hash (strBytes key)
  let subdir := hash.take 2
  if key.startsWith "message:" then CachePath.messages subdir hash
  else if key.startsWith "attachment:" then CachePath.attachments subdir hash
  else if key.startsWith "temp:" then CachePath.temp hash
  else CachePath.root hash

/-- Filesystem model: hard links (path → inode) over blobs (inode → bytes). -/
structure Fs where
  links : List (CachePath × Nat)
  inodes : List (Nat × List Nat)
  next : Nat
deriving DecidableEq, Repr

def Fs.empty : Fs := { links := [], inodes := [], next := 0 }

def Fs.read (fs : Fs) (p : CachePath) : Option (List Nat) :=
  match alGet fs.links p with
  | some ino => alGet fs.inodes ino
  | none => none

/-- `std::fs::write`: create or truncate the file at `p`. -/
def Fs.write (fs : Fs) (p : CachePath) (data : List Nat) : Fs :=
  { links := alInsertRep fs.links p fs.next,
    inodes := fs.inodes ++ [(fs.next, data)],
    next := fs.next + 1 }

/-- `std::fs::hard_link(src, dst)`: a second link to `src`'s inode; fails
with `AlreadyExists` when `dst` exists and with `NotFound` when `src` does
not. -/
def Fs.hardLink (fs : Fs) (src dst : CachePath) : Except AsgardError Fs :=
  if (alGet fs.links dst).isSome then
    Except.error (AsgardError.io "hard_link: destination exists")
  else
    match alGet fs.links src with
    | none => Except.error (AsgardError.io "hard_link: source missing")
    | some ino => Except.ok { fs with links := alInsertRep fs.links dst ino }

/-- `Cache::remove_entry`: delete the link at `p` when it exists (the blob
stays reachable through any remaining links). -/
def Fs.removeFile (fs : Fs) (p : CachePath) : Fs :=
  { fs with links := alRemove fs.links p }

/-- Cache entry metadata (`CacheEntry` in `cache.rs`). -/
structure CacheEntry where
  key : String
  file_path : CachePath
  content_type : String
  size : Nat
  created_at : Int
  accessed_at : Int
  expires_at : Option Int
  content_hash : List Nat
deriving DecidableEq, Repr

/-- Cache statistics counters (`CacheStats`, minus the float `hit_ratio`). -/
structure CacheStats where
  total_entries : Nat
  total_size : Nat
  hits : Nat
  misses : Nat
deriving DecidableEq, Repr

/-- The cache (`struct Cache`): metadata map, stats, and backing files. -/
structure CacheState where
  max_size : Nat
  entries : List (String × CacheEntry)
  stats : CacheStats
  fs : Fs
deriving DecidableEq, Repr

/-- `Cache::new`: empty cache with the 500 MB default size limit
(`load_cache_entries` starts from an empty entry map). -/
def Cache.new : CacheState :=
  { max_size := 500 * 1024 * 1024,
    entries := [],
    stats := { total_entries := 0, total_size := 0, hits := 0, misses := 0 },
    fs := Fs.empty }

/-- `Cache::find_by_hash`: first entry whose `content_hash` matches. -/
def find_by_hash : List (String × CacheEntry) → List Nat → Option CacheEntry
  | [], _ => none
  | p :: ps, h => if p.2.content_hash = h then some p.2 else find_by_hash ps h

/-- `Cache::update_stats_hit` (the float `hit_ratio` update is elided). -/
def update_stats_hit (s : CacheStats) : CacheStats :=
  { s with hits := s.hits + 1 }

/-- `Cache::update_stats_miss` (the float `hit_ratio` update is elided). -/
def update_stats_miss (s : CacheStats) : CacheStats :=
  { s with misses := s.misses + 1 }

def sumSizes (es : List (String × CacheEntry)) : Nat :=
  (es.map (fun p => p.2.size)).sum

/-- Eviction loop of `enforce_size_limit`: walk the access-time-sorted
snapshot, removing entries and files until the total fits. -/
def evictLoop (maxs : Nat) :
    List (String × CacheEntry) → Fs → Nat → List (String × CacheEntry) →
    List (String × CacheEntry) × Fs
  | entries, fs, _, [] => (entries, fs)
  | entries, fs, total, (k, e) :: rest =>
    if total ≤ maxs then (entries, fs)
    else evictLoop maxs (alRemove entries k) (fs.removeFile e.file_path)
      (total - e.size) rest

/-- `Cache::enforce_size_limit`: evict in ascending `accessed_at` order
while the total stored size exceeds `max_size`. -/
def enforce_size_limit (st : CacheState) : CacheState :=
  let total := sumSizes st.entries
  if total ≤ st.max_size then st
  else
    let sorted := stSort
      (fun a b => keyLe (fun p : String × CacheEntry => p.2.accessed_at) a b)
      st.entries
    let ef := evictLoop st.max_size st.entries st.fs total sorted
    { st with entries := ef.1, fs := ef.2 }

/-- `Cache::store`.  The dedup branch returns before the stats update and
the size-limit pass, exactly as the early `return Ok(())` of the source. -/
def Cache.store (st : CacheState) (key : String) (data : List Nat)
    (content_type : String) (ttl : Option Int) (t : Int) :
    CacheState × Except AsgardError Unit :=
  let content_hash := calculate_hash data
  match find_by_hash st.entries content_hash with
  | some existing =>
    let new_path := get_file_path key
    match st.fs.hardLink existing.file_path new_path with
    | Except.error e => (st, Except.error e)
    | Except.ok fs2 =>
      let entry : CacheEntry :=
        { key := key, file_path := new_path, content_type := content_type,
          size := data.length, created_at := t, accessed_at := t,
          expires_at := ttl.map (fun d => t + d),
          content_hash := content_hash }
      ({ st with fs := fs2, entries := alInsertRep st.entries key entry },
        Except.ok ())
  | none =>
    let file_path := get_file_path key
    let fs2 := st.fs.write file_path data
    let entry : CacheEntry :=
      { key := key, file_path := file_path, content_type := content_type,
        size := data.length, created_at := t, accessed_at := t,
        expires_at := ttl.map (fun d => t + d),
        content_hash := content_hash }
    let st2 : CacheState :=
      { st with
        fs := fs2
        entries := alInsertRep st.entries key entry
        stats := update_stats_hit st.stats }
    (enforce_size_limit st2, Except.ok ())

/-- The live branch of `Cache::retrieve`: bump `accessed_at`, read the file;
a vanished file drops the entry and counts as a miss. -/
def retrieveLive (st : CacheState) (key : String) (entry : CacheEntry)
    (t : Int) : CacheState × Except AsgardError (Option (List Nat)) :=
  let entries2 := alInsertRep st.entries key { entry with accessed_at := t }
  match st.fs.read entry.file_path with
  | some data =>
    ({ st with entries := entries2, stats := update_stats_hit st.stats },
      Except.ok (some data))
  | none =>
    ({ st with
        entries := alRemove st.entries key
        stats := update_stats_miss st.stats },
      Except.ok none)

/-- `Cache::retrieve`: miss on absent key; lazy-delete on expiry; otherwise
read through `retrieveLive`. -/
def Cache.retrieve (st : CacheState) (key : String) (t : Int) :
    CacheState × Except AsgardError (Option (List Nat)) :=
  match alGet st.entries key with
  | none => ({ st with stats := update_stats_miss st.stats }, Except.ok none)
  | some entry =>
    match entry.expires_at with
    | some exp =>
      if exp < t then
        ({ st with
            fs := st.fs.removeFile entry.file_path
            entries := alRemove st.entries key
            stats := update_stats_miss st.stats },
          Except.ok none)
      else retrieveLive st key entry t
    | none => retrieveLive st key entry t

/-- `Cache::remove`: drop the metadata entry and its file link. -/
def Cache.remove (st : CacheState) (key : String) :
    CacheState × Except AsgardError Bool :=
  match alGet st.entries key with
  | some entry =>
    ({ st with
        entries := alRemove st.entries key
        fs := st.fs.removeFile entry.file_path },
      Except.ok true)
  | none => (st, Except.ok false)

/-! ## Injectivity of content-addressed paths -/

theorem char_toNat_injective {a b : Char} (h : a.toNat = b.toNat) : a = b :=
  Char.eq_of_val_eq (UInt32.eq_of_val_eq (Fin.ext h))

theorem strBytes_injective {s t : String} (h : strBytes s = strBytes t) :
    s = t := by
  simp only [strBytes] at h
  have hd : s.data = t.data :=
    List.map_injective_iff.mpr (fun a b hab => char_toNat_injective hab) h
  cases s
  cases t
  simp only at hd
  rw [hd]

/-- The hash component carried by every `CachePath` constructor. -/
def pathHash : CachePath → List Nat
  | CachePath.messages _ h => h
  | CachePath.attachments _ h => h
  | CachePath.temp h => h
  | CachePath.root h => h

theorem pathHash_get_file_path (k : String) :
    pathHash (get_file_path k) = strBytes k := by
  simp only [get_file_path]
  split
  · rfl
  · split
    · rfl
    · split
      · rfl
      · rfl

theorem get_file_path_injective {k1 k2 : String}
    (h : get_file_path k1 = get_file_path k2) : k1 = k2 := by
  have hp := congrArg pathHash h
  rw [pathHash_get_file_path, pathHash_get_file_path] at hp
  exact strBytes_injective hp

/-! ## Cache step lemmas -/

theorem enforce_size_limit_of_le {st : CacheState}
    (h : sumSizes st.entries ≤ st.max_size) : enforce_size_limit st = st := by
  simp [enforce_size_limit, h]

theorem enforce_size_limit_stats (st : CacheState) :
    (enforce_size_limit st).stats = st.stats := by
  simp only [enforce_size_limit]
  split
  · rfl
  · rfl

/-- The entry built by a fresh (non-deduplicating) `store` without TTL. -/
def mkEntry (key : String) (b : List Nat) (ct : String) (t : Int) :
    CacheEntry :=
  { key := key, file_path := get_file_path key, content_type := ct,
    size := b.length, created_at := t, accessed_at := t,
    expires_at := none, content_hash := b }

/-- A fresh `store` on the empty cache, with content inside the size limit:
writes one blob, one entry, and bumps the hit counter. -/
theorem store_fresh_small (key : String) (b : List Nat) (ct : String)
    (t : Int) (hsize : b.length ≤ 500 * 1024 * 1024) :
    Cache.store Cache.new key b ct none t =
      ({ max_size := 500 * 1024 * 1024,
         entries := [(key, mkEntry key b ct t)],
         stats := { total_entries := 0, total_size := 0, hits := 1, misses := 0 },
         fs := { links := [(get_file_path key, 0)], inodes := [(0, b)], next := 1 } },
       Except.ok ()) := by
  have hs : sumSizes [(key, mkEntry key b ct t)] ≤ 500 * 1024 * 1024 := by
    simpa [sumSizes, mkEntry] using hsize
  simp [Cache.store, Cache.new, find_by_hash, calculate_hash, Fs.write,
    Fs.empty, alInsertRep, update_stats_hit, mkEntry,
    enforce_size_limit_of_le, hs, enforce_size_limit]
  simp [sumSizes, mkEntry] at hs ⊢
  simp [hs]

/-- A fresh `store` whose content exceeds the size limit: the entry is
inserted, the hit counter bumped, and then `enforce_size_limit` immediately
evicts the entry again, deleting its file. -/
theorem store_big_empty (st : CacheState) (key : String) (b : List Nat)
    (ct : String) (t : Int) (hmax : st.max_size = 500 * 1024 * 1024)
    (hent : st.entries = []) (hlinks : st.fs.links = [])
    (hsize : ¬ b.length ≤ 500 * 1024 * 1024) :
    Cache.store st key b ct none t =
      ({ st with
          entries := []
          stats := update_stats_hit st.stats
          fs := { links := [],
                  inodes := st.fs.inodes ++ [(st.fs.next, b)],
                  next := st.fs.next + 1 } },
        Except.ok ()) := by
  have hs : ¬ b.length ≤ st.max_size := by
    rw [hmax]
    exact hsize
  simp [Cache.store, hent, find_by_hash, calculate_hash, Fs.write, hlinks,
    alInsertRep, enforce_size_limit, sumSizes, hs, stSort, stInsert,
    evictLoop, alRemove, Fs.removeFile]

/-! ## Claim C6: dedup store, remove one key, retrieve the other -/

/-- C6 (counterexample): with content larger than the cache's 500 MB
`max_size`, each store is immediately evicted by `enforce_size_limit`, so
after `store(k1, b)`, `store(k2, b)`, `remove(k1)` the retrieve of `k2`
returns `None`, not `Some(b)` — refuting the claim as stated for every byte
string `b`. -/
theorem c6_oversized_counterexample :
    ("k1" : String) ≠ "k2" ∧
    (Cache.retrieve ((Cache.remove ((Cache.store ((Cache.store Cache.new "k1"
      (List.replicate 524288001 37) "ct" none 0).1) "k2"
      (List.replicate 524288001 37) "ct" none 0).1) "k1").1) "k2" 0).2 =
      Except.ok none := by
  have hsize : ¬ (List.replicate 524288001 37).length ≤ 500 * 1024 * 1024 := by
    simp only [List.length_replicate]
    decide
  constructor
  · decide
  · rw [store_big_empty Cache.new "k1" (List.replicate 524288001 37) "ct" 0
      rfl rfl rfl hsize]
    rw [store_big_empty _ "k2" (List.replicate 524288001 37) "ct" 0
      rfl rfl rfl hsize]
    simp only [Cache.remove, Cache.retrieve, alGet, update_stats_miss]

/-- C6 (amended): for every two distinct keys and every byte string that
fits within the cache's size limit, after `store(k1, b)`, `store(k2, b)`,
`remove(k1)`, a retrieve of `k2` still returns `Some(b)`: the second store
deduplicates by content hash onto a second hard link, and removing `k1`
only unlinks `k1`'s path. -/
theorem c6_dedup_remove_keeps_other_key (k1 k2 : String) (b : List Nat)
    (ct1 ct2 : String) (t1 t2 t3 : Int) (hne : k1 ≠ k2)
    (hsize : b.length ≤ 500 * 1024 * 1024) :
    (Cache.retrieve
      ((Cache.remove
        ((Cache.store ((Cache.store Cache.new k1 b ct1 none t1).1)
          k2 b ct2 none t2).1) k1).1) k2 t3).2 = Except.ok (some b) := by
  have hp : get_file_path k1 ≠ get_file_path k2 :=
    fun h => hne (get_file_path_injective h)
  rw [store_fresh_small k1 b ct1 t1 hsize]
  simp [Cache.store, find_by_hash, calculate_hash, mkEntry, Fs.hardLink,
    alGet, hp, hne, alInsertRep, Cache.remove, alRemove, Fs.removeFile,
    Cache.retrieve, retrieveLive, Fs.read, update_stats_hit]

/-- Witness for `c6_dedup_remove_keeps_other_key` at concrete keys and
bytes. -/
theorem c6_dedup_remove_keeps_other_key_witness :
    (Cache.retrieve
      ((Cache.remove
        ((Cache.store ((Cache.store Cache.new "k1" [1, 2] "ct" none 0).1)
          "k2" [1, 2] "ct" none 1).1) "k1").1) "k2" 2).2 =
      Except.ok (some [1, 2]) :=
  c6_dedup_remove_keeps_other_key "k1" "k2" [1, 2] "ct" "ct" 0 1 2
    (by decide) (by decide)

/-! ## Claim C9: storing twice under the same key -/

/-- C9 (counterexample): with content larger than `max_size`, the first
store's entry is evicted immediately, so the second store with the same key
and bytes finds no entry by hash, writes afresh and returns `Ok` — it does
not fail — and the first store's entry is not retrievable either. -/
theorem c9_oversized_counterexample :
    (Cache.store ((Cache.store Cache.new "k" (List.replicate 524288001 37)
      "ct" none 0).1) "k" (List.replicate 524288001 37) "ct" none 0).2 =
      Except.ok () ∧
    (Cache.retrieve ((Cache.store ((Cache.store Cache.new "k"
      (List.replicate 524288001 37) "ct" none 0).1) "k"
      (List.replicate 524288001 37) "ct" none 0).1) "k" 0).2 =
      Except.ok none := by
  have hsize : ¬ (List.replicate 524288001 37).length ≤ 500 * 1024 * 1024 := by
    simp only [List.length_replicate]
    decide
  rw [store_big_empty Cache.new "k" (List.replicate 524288001 37) "ct" 0
    rfl rfl rfl hsize]
  rw [store_big_empty _ "k" (List.replicate 524288001 37) "ct" 0
    rfl rfl rfl hsize]
  constructor
  · rfl
  · simp only [Cache.retrieve, alGet, update_stats_miss]

/-- C9 (amended): for content within the cache size limit, a second store
with the same key and bytes finds the first store's entry by content hash,
attempts a hard link whose destination is that entry's own path, fails with
an already-exists error and leaves the state unchanged; the first store's
entry remains retrievable. -/
theorem c9_double_store_errors (key : String) (b : List Nat) (ct : String)
    (t1 t2 t3 : Int) (hsize : b.length ≤ 500 * 1024 * 1024) :
    (find_by_hash ((Cache.store Cache.new key b ct none t1).1).entries
        (calculate_hash b)).map (fun e => e.file_path) =
      some (get_file_path key) ∧
    Cache.store ((Cache.store Cache.new key b ct none t1).1) key b ct none t2 =
      ((Cache.store Cache.new key b ct none t1).1,
        Except.error (AsgardError.io "hard_link: destination exists")) ∧
    (Cache.retrieve ((Cache.store ((Cache.store Cache.new key b ct none t1).1)
        key b ct none t2).1) key t3).2 = Except.ok (some b) := by
  rw [store_fresh_small key b ct t1 hsize]
  refine ⟨?_, ?_, ?_⟩
  · simp [find_by_hash, calculate_hash, mkEntry]
  · simp [Cache.store, find_by_hash, calculate_hash, mkEntry, Fs.hardLink,
      alGet]
  · simp [Cache.store, find_by_hash, calculate_hash, mkEntry, Fs.hardLink,
      alGet, Cache.retrieve, retrieveLive, Fs.read, update_stats_hit]

/-- Witness for `c9_double_store_errors` at a concrete key and bytes. -/
theorem c9_double_store_errors_witness :
    Cache.store ((Cache.store Cache.new "k" [9] "ct" none 0).1) "k" [9]
        "ct" none 1 =
      ((Cache.store Cache.new "k" [9] "ct" none 0).1,
        Except.error (AsgardError.io "hard_link: destination exists")) ∧
    (Cache.retrieve ((Cache.store ((Cache.store Cache.new "k" [9] "ct" none
        0).1) "k" [9] "ct" none 1).1) "k" 2).2 = Except.ok (some [9]) :=
  ⟨(c9_double_store_errors "k" [9] "ct" 0 1 2 (by decide)).2.1,
   (c9_double_store_errors "k" [9] "ct" 0 1 2 (by decide)).2.2⟩

/-! ## Claim C10: stats updates performed by `store` -/

/-- C10 (confirmed): a fresh-content `store` (hash absent) succeeds and
increments the `hits` counter by one, leaving `misses` alone, while a
deduplicating `store` (hash present) returns before the stats update and
leaves the counters unchanged whether or not its hard link succeeds. -/
theorem c10_store_stats (st : CacheState) (key : String) (data : List Nat)
    (ct : String) (ttl : Option Int) (t : Int) :
    (find_by_hash st.entries (calculate_hash data) = none →
      (Cache.store st key data ct ttl t).2 = Except.ok () ∧
      (Cache.store st key data ct ttl t).1.stats =
        { st.stats with hits := st.stats.hits + 1 }) ∧
    (∀ e, find_by_hash st.entries (calculate_hash data) = some e →
      (Cache.store st key data ct ttl t).1.stats = st.stats) := by
  constructor
  · intro hfind
    constructor
    · simp only [Cache.store, hfind]
    · simp only [Cache.store, hfind]
      rw [enforce_size_limit_stats]
      rfl
  · intro e hfind
    simp only [Cache.store, hfind]
    cases h : st.fs.hardLink e.file_path (get_file_path key) with
    | error err => simp [h]
    | ok fs2 => simp [h]

/-- Witness for `c10_store_stats`: a fresh store on the empty cache bumps
`hits` to 1; a subsequent dedup store under another key leaves the stats of
the intermediate state unchanged. -/
theorem c10_store_stats_witness :
    ((Cache.store Cache.new "k1" [5] "ct" none 0).2 = Except.ok () ∧
      (Cache.store Cache.new "k1" [5] "ct" none 0).1.stats =
        { total_entries := 0, total_size := 0, hits := 1, misses := 0 }) ∧
    (Cache.store ((Cache.store Cache.new "k1" [5] "ct" none 0).1) "k2" [5]
        "ct" none 1).1.stats =
      ((Cache.store Cache.new "k1" [5] "ct" none 0).1).stats := by
  constructor
  · exact (c10_store_stats Cache.new "k1" [5] "ct" none 0).1 (by decide)
  · exact (c10_store_stats ((Cache.store Cache.new "k1" [5] "ct" none 0).1)
      "k2" [5] "ct" none 1).2 (mkEntry "k1" [5] "ct" 0) (by decide)

/-! ## Sync engines and the sync manager (`src/core/src/sync/`)

The persisted `Mailbox` and `Message` entities are rich structures owned by
the Storage collaborator; the sync-cycle control flow reads only
`message.id`, so they are modelled with an id and a name/subject.
`SyncResult.duration` (wall-clock time) is not modelled. -/

structure Mailbox where
  id : Nat
  name : String
deriving DecidableEq, Repr

structure Message where
  id : Nat
  subject : String
deriving DecidableEq, Repr

inductive SyncStatus where
  | Idle
  | Running
  | Paused
  | Error
deriving DecidableEq, Repr

structure SyncResult where
  messages_synced : Nat
  new_messages : Nat
  updated_messages : Nat
  deleted_messages : Nat
  error : Option String
deriving DecidableEq, Repr

structure Account where
  id : Nat
  email : String
deriving DecidableEq, Repr

/-! ### POP3 engine (`pop3_sync.rs`), claim C5

The functions below embed the `impl SyncEngine for Pop3Sync` trait methods,
the interface the `SyncManager` calls: `connect` delegates to the inherent
method, which fails with Unsupported; `sync_mailboxes` and
`sync_mailbox_messages` return `Ok(vec![])`. -/

structure Pop3Sync where
  account : Account
  status : SyncStatus
  last_sync_result : Option SyncResult
deriving DecidableEq, Repr

/-- `Pop3Sync::new`. -/
def Pop3Sync.new (account : Account) : Pop3Sync :=
  { account := account, status := SyncStatus.Idle, last_sync_result := none }

/-- Trait method `connect`, delegating to the inherent `Pop3Sync::connect`. -/
def Pop3Sync.connect (_s : Pop3Sync) : Except AsgardError Unit :=
  Except.error (AsgardError.unsupported "POP3 sync not yet implemented")

/-- Trait method `disconnect`, delegating to the inherent method. -/
def Pop3Sync.disconnect (_s : Pop3Sync) : Except AsgardError Unit :=
  Except.ok ()

/-- Trait method `sync_mailboxes`. -/
def Pop3Sync.sync_mailboxes (_s : Pop3Sync) : Except AsgardError (List Mailbox) :=
  Except.ok []

/-- Trait method `sync_mailbox_messages`. -/
def Pop3Sync.sync_mailbox_messages (_s : Pop3Sync) (_mailbox : Mailbox) :
    Except AsgardError (List Message) :=
  Except.ok []

def pop3Fixture : Pop3Sync := Pop3Sync.new { id := 1, email := "test@example.com" }

/-- C5 (counterexample): on the shared `SyncEngine` interface of the POP3
engine, `sync_mailboxes` and `sync_mailbox_messages` succeed with empty
lists instead of failing with an Unsupported error. -/
theorem c5_pop3_counterexample :
    Pop3Sync.sync_mailboxes pop3Fixture = Except.ok [] ∧
    Pop3Sync.sync_mailbox_messages pop3Fixture { id := 2, name := "INBOX" } =
      Except.ok [] :=
  ⟨rfl, rfl⟩

/-- C5 (amended): of the POP3 engine's `SyncEngine` operations, only
`connect` fails with an Unsupported error; `sync_mailboxes` and
`sync_mailbox_messages` succeed vacuously with empty lists. -/
theorem c5_pop3_amended (s : Pop3Sync) (mb : Mailbox) :
    Pop3Sync.connect s =
      Except.error (AsgardError.unsupported "POP3 sync not yet implemented") ∧
    Pop3Sync.sync_mailboxes s = Except.ok [] ∧
    Pop3Sync.sync_mailbox_messages s mb = Except.ok [] :=
  ⟨rfl, rfl, rfl⟩

/-! ### The sync cycle (`sync_manager.rs::sync_account_engine`)

Both `SyncManager::sync_account` and the background-sync task delegate an
account's cycle to the private helper `sync_account_engine`; the embedding
models that helper over abstract engine, storage and search-index
operations (the trait objects and collaborators), threading their states
explicitly.  The engine is `&mut`, so its state (and the partially updated
storage) survives an early `?`-return; every engine call is additionally
recorded in an observable `trace`, mirroring the call sites one-to-one. -/

inductive EngineCall where
  | connectCall
  | syncMailboxesCall
  | syncMailboxMessagesCall (mb : Mailbox)
  | disconnectCall
deriving DecidableEq, Repr

/-- The four session operations of the `SyncEngine` trait used by a cycle. -/
structure EngineOps (σ : Type) where
  connect : σ → Except AsgardError σ
  sync_mailboxes : σ → Except AsgardError (List Mailbox × σ)
  sync_mailbox_messages : σ → Mailbox → Except AsgardError (List Message × σ)
  disconnect : σ → Except AsgardError σ

/-- The Storage operations used by a cycle. -/
structure StorageOps (δ : Type) where
  create_mailbox : δ → Mailbox → Except AsgardError δ
  get_message : δ → Nat → Except AsgardError (Option Message)
  update_message : δ → Message → Except AsgardError δ
  create_message : δ → Message → Except AsgardError δ

/-- The SearchIndex operations used by a cycle. -/
structure IndexOps (ι : Type) where
  add_message : ι → Message → Except AsgardError ι
  update_message : ι → Message → Except AsgardError ι

/-- The mutable state of one running cycle: engine, storage and index
states, the engine-call trace, and the three counters of the cycle. -/
structure RunState (σ δ ι : Type) where
  eng : σ
  db : δ
  idx : ι
  trace : List EngineCall
  messages_synced : Nat
  new_messages : Nat
  updated_messages : Nat
deriving DecidableEq, Repr

/-- The mailbox-persistence loop (`create_mailbox` under the storage lock). -/
def persist_mailboxes (sops : StorageOps δ) :
    δ → List Mailbox → δ × Option AsgardError
  | db, [] => (db, none)
  | db, mb :: rest =>
    match sops.create_mailbox db mb with
    | Except.error e => (db, some e)
    | Except.ok db2 => persist_mailboxes sops db2 rest

/-- The per-message persistence loop: look the message up by id; update
storage and index when found (counting it updated), insert otherwise
(counting it new); each message also bumps `messages_synced`. -/
def persist_messages (sops : StorageOps δ) (iops : IndexOps ι) :
    RunState σ δ ι → List Message → RunState σ δ ι × Option AsgardError
  | st, [] => (st, none)
  | st, msg :: rest =>
    match sops.get_message st.db msg.id with
    | Except.error e => (st, some e)
    | Except.ok (some _) =>
      match sops.update_message st.db msg with
      | Except.error e => (st, some e)
      | Except.ok db2 =>
        match iops.update_message st.idx msg with
        | Except.error e => ({ st with db := db2 }, some e)
        | Except.ok idx2 =>
          persist_messages sops iops
            { st with
              db := db2
              idx := idx2
              updated_messages := st.updated_messages + 1
              messages_synced := st.messages_synced + 1 } rest
    | Except.ok none =>
      match sops.create_message st.db msg with
      | Except.error e => (st, some e)
      | Except.ok db2 =>
        match iops.add_message st.idx msg with
        | Except.error e => ({ st with db := db2 }, some e)
        | Except.ok idx2 =>
          persist_messages sops iops
            { st with
              db := db2
              idx := idx2
              new_messages := st.new_messages + 1
              messages_synced := st.messages_synced + 1 } rest

/-- The per-mailbox loop: fetch a mailbox's messages, persist them, then
move to the next mailbox; any error aborts the loop. -/
def sync_mb_loop (eops : EngineOps σ) (sops : StorageOps δ)
    (iops : IndexOps ι) :
    RunState σ δ ι → List Mailbox → RunState σ δ ι × Option AsgardError
  | st, [] => (st, none)
  | st, mb :: rest =>
    match eops.sync_mailbox_messages st.eng mb with
    | Except.error e =>
      ({ st with trace := st.trace ++ [EngineCall.syncMailboxMessagesCall mb] },
        some e)
    | Except.ok (msgs, eng2) =>
      match persist_messages sops iops
        { st with
          eng := eng2
          trace := st.trace ++ [EngineCall.syncMailboxMessagesCall mb] }
        msgs with
      | (st3, some e) => (st3, some e)
      | (st3, none) => sync_mb_loop eops sops iops st3 rest

/-- Everything `sync_account_engine` does before its `disconnect` call:
connect, list mailboxes, persist them, then run the per-mailbox loop. -/
def sync_body (eops : EngineOps σ) (sops : StorageOps δ) (iops : IndexOps ι)
    (eng0 : σ) (db0 : δ) (idx0 : ι) : RunState σ δ ι × Option AsgardError :=
  match eops.connect eng0 with
  | Except.error e =>
    ({ eng := eng0, db := db0, idx := idx0,
       trace := [EngineCall.connectCall],
       messages_synced := 0, new_messages := 0, updated_messages := 0 },
      some e)
  | Except.ok eng1 =>
    match eops.sync_mailboxes eng1 with
    | Except.error e =>
      ({ eng := eng1, db := db0, idx := idx0,
         trace := [EngineCall.connectCall, EngineCall.syncMailboxesCall],
         messages_synced := 0, new_messages := 0, updated_messages := 0 },
        some e)
    | Except.ok (mailboxes, eng2) =>
      match persist_mailboxes sops db0 mailboxes with
      | (db1, some e) =>
        ({ eng := eng2, db := db1, idx := idx0,
           trace := [EngineCall.connectCall, EngineCall.syncMailboxesCall],
           messages_synced := 0, new_messages := 0, updated_messages := 0 },
          some e)
      | (db1, none) =>
        sync_mb_loop eops sops iops
          { eng := eng2, db := db1, idx := idx0,
            trace := [EngineCall.connectCall, EngineCall.syncMailboxesCall],
            messages_synced := 0, new_messages := 0, updated_messages := 0 }
          mailboxes

/-- `SyncManager::sync_account_engine`: the body, then — only when every
step of the body succeeded — the `disconnect` call and the `SyncResult`
(`deleted_messages` is hardwired to 0 by the source; `duration` elided). -/
def sync_account_engine (eops : EngineOps σ) (sops : StorageOps δ)
    (iops : IndexOps ι) (eng0 : σ) (db0 : δ) (idx0 : ι) :
    RunState σ δ ι × Except AsgardError SyncResult :=
  match sync_body eops sops iops eng0 db0 idx0 with
  | (st, some e) => (st, Except.error e)
  | (st, none) =>
    match eops.disconnect st.eng with
    | Except.error e =>
      ({ st with trace := st.trace ++ [EngineCall.disconnectCall] },
        Except.error e)
    | Except.ok eng3 =>
      ({ st with
          eng := eng3
          trace := st.trace ++ [EngineCall.disconnectCall] },
        Except.ok
          { messages_synced := st.messages_synced,
            new_messages := st.new_messages,
            updated_messages := st.updated_messages,
            deleted_messages := 0, error := none })

/-! ### Trace lemmas for the sync cycle -/

theorem persist_messages_trace (sops : StorageOps δ) (iops : IndexOps ι)
    (st : RunState σ δ ι) (msgs : List Message) :
    (persist_messages sops iops st msgs).1.trace = st.trace := by
  induction msgs generalizing st with
  | nil => rfl
  | cons m rest ih =>
    simp only [persist_messages]
    cases hg : sops.get_message st.db m.id with
    | error e => rfl
    | ok found =>
      cases found with
      | some f =>
        cases hu : sops.update_message st.db m with
        | error e => rfl
        | ok db2 =>
          cases hi : iops.update_message st.idx m with
          | error e => rfl
          | ok idx2 => exact ih _
      | none =>
        cases hu : sops.create_message st.db m with
        | error e => rfl
        | ok db2 =>
          cases hi : iops.add_message st.idx m with
          | error e => rfl
          | ok idx2 => exact ih _

theorem sync_mb_loop_disconnect (eops : EngineOps σ) (sops : StorageOps δ)
    (iops : IndexOps ι) (st : RunState σ δ ι) (mbs : List Mailbox) :
    (EngineCall.disconnectCall ∈ (sync_mb_loop eops sops iops st mbs).1.trace ↔
      EngineCall.disconnectCall ∈ st.trace) := by
  induction mbs generalizing st with
  | nil => exact Iff.rfl
  | cons mb rest ih =>
    simp only [sync_mb_loop]
    cases hf : eops.sync_mailbox_messages st.eng mb with
    | error e => simp
    | ok pr =>
      obtain ⟨msgs, eng2⟩ := pr
      cases hp : persist_messages sops iops
        { st with
          eng := eng2
          trace := st.trace ++ [EngineCall.syncMailboxMessagesCall mb] }
        msgs with
      | mk st3 r =>
        have htr : st3.trace =
            st.trace ++ [EngineCall.syncMailboxMessagesCall mb] := by
          have := persist_messages_trace sops iops
            { st with
              eng := eng2
              trace := st.trace ++ [EngineCall.syncMailboxMessagesCall mb] }
            msgs
          rw [hp] at this
          exact this
        cases r with
        | some e =>
          dsimp only
          rw [hp]
          simp [htr]
        | none =>
          dsimp only
          rw [hp]
          dsimp only
          rw [ih st3, htr]
          simp

theorem sync_body_no_disconnect (eops : EngineOps σ) (sops : StorageOps δ)
    (iops : IndexOps ι) (eng0 : σ) (db0 : δ) (idx0 : ι) :
    EngineCall.disconnectCall ∉
      (sync_body eops sops iops eng0 db0 idx0).1.trace := by
  simp only [sync_body]
  cases hc : eops.connect eng0 with
  | error e => simp
  | ok eng1 =>
    cases hm : eops.sync_mailboxes eng1 with
    | error e => simp [hm]
    | ok pr =>
      obtain ⟨mailboxes, eng2⟩ := pr
      cases hpm : persist_mailboxes sops db0 mailboxes with
      | mk db1 r =>
        cases r with
        | some e => simp [hm, hpm]
        | none =>
          dsimp only
          rw [hm]
          dsimp only
          rw [hpm]
          dsimp only
          rw [sync_mb_loop_disconnect]
          simp

/-! ## Claim C1: disconnect on exit paths of a cycle -/

/-- An engine double whose `sync_mailboxes` fails; all other operations
succeed. -/
def spyEngineC1 : EngineOps Unit :=
  { connect := fun s => Except.ok s
    sync_mailboxes := fun _ =>
      Except.error (AsgardError.network "mailbox listing failed")
    sync_mailbox_messages := fun s _ => Except.ok ([], s)
    disconnect := fun s => Except.ok s }

/-- A storage double on which every operation succeeds (no stored state). -/
def okStorage : StorageOps Unit :=
  { create_mailbox := fun d _ => Except.ok d
    get_message := fun _ _ => Except.ok none
    update_message := fun d _ => Except.ok d
    create_message := fun d _ => Except.ok d }

/-- A search-index double on which every operation succeeds. -/
def okIndex : IndexOps Unit :=
  { add_message := fun i _ => Except.ok i
    update_message := fun i _ => Except.ok i }

/-- C1 (counterexample): a cycle whose `sync_mailboxes` fails exits with the
error without ever invoking the engine's `disconnect` — refuting that
disconnect is invoked on every exit path. -/
theorem c1_no_disconnect_on_error_counterexample :
    (sync_account_engine spyEngineC1 okStorage okIndex () () ()).2 =
      Except.error (AsgardError.network "mailbox listing failed") ∧
    EngineCall.disconnectCall ∉
      (sync_account_engine spyEngineC1 okStorage okIndex () () ()).1.trace := by
  constructor
  · rfl
  · decide

/-- C1 (amended): the engine's `disconnect` is invoked in a cycle exactly
when every preceding step (connect, sync_mailboxes, mailbox persistence,
and each mailbox's message sync and persistence) has succeeded; when any
intermediate step fails, the cycle exits with the error without invoking
`disconnect`. -/
theorem c1_disconnect_iff_body_ok (eops : EngineOps σ) (sops : StorageOps δ)
    (iops : IndexOps ι) (eng0 : σ) (db0 : δ) (idx0 : ι) :
    EngineCall.disconnectCall ∈
        (sync_account_engine eops sops iops eng0 db0 idx0).1.trace ↔
      (sync_body eops sops iops eng0 db0 idx0).2 = none := by
  have hnd := sync_body_no_disconnect eops sops iops eng0 db0 idx0
  simp only [sync_account_engine]
  cases hb : sync_body eops sops iops eng0 db0 idx0 with
  | mk st r =>
    rw [hb] at hnd
    cases r with
    | some e =>
      simp only
      constructor
      · intro hmem
        exact absurd hmem hnd
      · intro hcontra
        cases hcontra
    | none =>
      cases hd : eops.disconnect st.eng with
      | error e => simp [hd]
      | ok eng3 => simp [hd]

/-! ## Claim C2: a failing mailbox aborts the cycle -/

theorem sync_mb_loop_append (eops : EngineOps σ) (sops : StorageOps δ)
    (iops : IndexOps ι) (st : RunState σ δ ι) (l1 l2 : List Mailbox) :
    sync_mb_loop eops sops iops st (l1 ++ l2) =
      match sync_mb_loop eops sops iops st l1 with
      | (st1, some e) => (st1, some e)
      | (st1, none) => sync_mb_loop eops sops iops st1 l2 := by
  induction l1 generalizing st with
  | nil => rfl
  | cons mb rest ih =>
    simp only [List.cons_append, sync_mb_loop]
    cases hf : eops.sync_mailbox_messages st.eng mb with
    | error e => rfl
    | ok pr =>
      obtain ⟨msgs, eng2⟩ := pr
      dsimp only
      cases hp : persist_messages sops iops
        { st with
          eng := eng2
          trace := st.trace ++ [EngineCall.syncMailboxMessagesCall mb] }
        msgs with
      | mk st3 r =>
        cases r with
        | some e => rfl
        | none => exact ih st3

/-- An engine double for C2: two mailboxes; fetching the first succeeds with
no messages, fetching the second fails. -/
def mbA : Mailbox := { id := 1, name := "INBOX" }

def mbB : Mailbox := { id := 2, name := "Sent" }

def spyEngineC2 : EngineOps Unit :=
  { connect := fun s => Except.ok s
    sync_mailboxes := fun s => Except.ok ([mbA, mbB], s)
    sync_mailbox_messages := fun s mb =>
      if mb = mbA then Except.ok ([], s)
      else Except.error (AsgardError.network "fetch failed")
    disconnect := fun s => Except.ok s }

/-- An engine double for the C2 counterexample: fetching the first mailbox
fails, fetching the second would succeed. -/
def spyEngineC2x : EngineOps Unit :=
  { connect := fun s => Except.ok s
    sync_mailboxes := fun s => Except.ok ([mbA, mbB], s)
    sync_mailbox_messages := fun s mb =>
      if mb = mbA then Except.error (AsgardError.network "fetch failed")
      else Except.ok ([], s)
    disconnect := fun s => Except.ok s }

/-- C2 (counterexample): when `sync_mailbox_messages` fails for the first of
two mailboxes, the cycle's result is that error (it is not caught) and the
second mailbox is never fetched — the cycle does not continue. -/
theorem c2_error_not_caught_counterexample :
    (sync_account_engine spyEngineC2x okStorage okIndex () () ()).2 =
      Except.error (AsgardError.network "fetch failed") ∧
    EngineCall.syncMailboxMessagesCall mbB ∉
      (sync_account_engine spyEngineC2x okStorage okIndex () () ()).1.trace := by
  constructor
  · rfl
  · decide

/-- C2 (amended): if `sync_mailbox_messages` returns an error for a mailbox
of the cycle (after the earlier mailboxes synced cleanly), the cycle
immediately returns that error, and its final engine call is the failing
fetch — the remaining mailboxes are not fetched. -/
theorem c2_mailbox_error_aborts_cycle (eops : EngineOps σ)
    (sops : StorageOps δ) (iops : IndexOps ι)
    (eng0 : σ) (db0 : δ) (idx0 : ι)
    (pre post : List Mailbox) (mb : Mailbox) (eng1 eng2 : σ) (db1 : δ)
    (st1 : RunState σ δ ι) (e : AsgardError)
    (hc : eops.connect eng0 = Except.ok eng1)
    (hm : eops.sync_mailboxes eng1 = Except.ok (pre ++ mb :: post, eng2))
    (hp : persist_mailboxes sops db0 (pre ++ mb :: post) = (db1, none))
    (hpre : sync_mb_loop eops sops iops
      { eng := eng2, db := db1, idx := idx0,
        trace := [EngineCall.connectCall, EngineCall.syncMailboxesCall],
        messages_synced := 0, new_messages := 0, updated_messages := 0 }
      pre = (st1, none))
    (hbad : eops.sync_mailbox_messages st1.eng mb = Except.error e) :
    (sync_account_engine eops sops iops eng0 db0 idx0).2 = Except.error e ∧
    (sync_account_engine eops sops iops eng0 db0 idx0).1.trace =
      st1.trace ++ [EngineCall.syncMailboxMessagesCall mb] := by
  have hbody : sync_body eops sops iops eng0 db0 idx0 =
      ({ st1 with
          trace := st1.trace ++ [EngineCall.syncMailboxMessagesCall mb] },
        some e) := by
    simp only [sync_body]
    rw [hc]
    dsimp only
    rw [hm]
    dsimp only
    rw [hp]
    dsimp only
    rw [sync_mb_loop_append]
    rw [hpre]
    dsimp only
    simp only [sync_mb_loop]
    rw [hbad]
  simp [sync_account_engine, hbody]

/-- Witness for `c2_mailbox_error_aborts_cycle` at the two-mailbox double:
the first mailbox syncs cleanly, the second fails. -/
theorem c2_mailbox_error_aborts_cycle_witness :
    (sync_account_engine spyEngineC2 okStorage okIndex () () ()).2 =
      Except.error (AsgardError.network "fetch failed") ∧
    (sync_account_engine spyEngineC2 okStorage okIndex () () ()).1.trace =
      [EngineCall.connectCall, EngineCall.syncMailboxesCall,
        EngineCall.syncMailboxMessagesCall mbA] ++
      [EngineCall.syncMailboxMessagesCall mbB] :=
  c2_mailbox_error_aborts_cycle spyEngineC2 okStorage okIndex () () ()
    [mbA] [] mbB () () ()
    { eng := (), db := (), idx := (),
      trace := [EngineCall.connectCall, EngineCall.syncMailboxesCall,
        EngineCall.syncMailboxMessagesCall mbA],
      messages_synced := 0, new_messages := 0, updated_messages := 0 }
    (AsgardError.network "fetch failed")
    rfl rfl rfl (by decide) (by decide)

end Mailapp

namespace Mailapp

/-! ## C7 stage A: pass1 characterization -/

theorem alGet_ensureNode {ns : List (String × Node)} {id k : String} :
    alGet (ensureNode ns id) k =
      match alGet ns k with
      | some n => some n
      | none => if k = id then some (emptyNode id) else none := by
  unfold ensureNode
  by_cases h : (alGet ns id).isSome
  · rw [if_pos h]
    cases hk : alGet ns k with
    | some n => rfl
    | none =>
      by_cases hki : k = id
      · rw [hki] at hk
        rw [hk] at h
        cases h
      · simp [hki]
  · rw [if_neg h]
    cases hk : alGet ns k with
    | some n => simp [alGet_append_left hk]
    | none =>
      rw [alGet_append_right hk]
      by_cases hki : k = id
      · simp [alGet, hki]
      · simp only [alGet, if_neg hki, if_neg (fun hc : id = k => hki hc.symm)]

/-- Shape of every node after pass 1: `mid` mirrors the key, no links yet,
and an attached message (if any) is a message of the input carrying this
Message-ID. -/
def NodeShape (L : List MsgMeta) (ns : List (String × Node)) : Prop :=
  ∀ x n, alGet ns x = some n → n.mid = x ∧ n.parent = none ∧
    n.children = [] ∧
    (n.msg = none ∨ ∃ m', m' ∈ L ∧ m'.message_id = some x ∧ n.msg = some m')

theorem nodeShape_ensure {L : List MsgMeta} {ns : List (String × Node)}
    (h : NodeShape L ns) (id : String) : NodeShape L (ensureNode ns id) := by
  intro x n hx
  rw [alGet_ensureNode] at hx
  cases hg : alGet ns x with
  | some n0 =>
    rw [hg] at hx
    cases hx
    exact h x n hg
  | none =>
    rw [hg] at hx
    by_cases hxi : x = id
    · rw [if_pos hxi] at hx
      cases hx
      refine ⟨hxi.symm, rfl, rfl, Or.inl rfl⟩
    · rw [if_neg hxi] at hx
      cases hx

theorem nodeShape_refs {L : List MsgMeta} {ns : List (String × Node)}
    (h : NodeShape L ns) (refs : List String) :
    NodeShape L (refs.foldl ensureNode ns) := by
  induction refs generalizing ns with
  | nil => exact h
  | cons r rs ih => exact ih (nodeShape_ensure h r)

theorem nodeShape_setMsg {L : List MsgMeta} {ns : List (String × Node)}
    {m : MsgMeta} {mid : String}
    (h : NodeShape L ns) (hm : m ∈ L) (hmid : m.message_id = some mid) :
    NodeShape L (setMsg (ensureNode ns mid) mid m) := by
  intro x n hx
  unfold setMsg at hx
  by_cases hxm : x = mid
  · rw [hxm, alGet_alModify_self] at hx
    cases hg : alGet (ensureNode ns mid) mid with
    | none => rw [hg] at hx; cases hx
    | some n0 =>
      rw [hg] at hx
      have hx2 : some ({ n0 with msg := some m } : Node) = some n := hx
      cases hx2
      obtain ⟨h1, h2, h3, _⟩ := nodeShape_ensure h mid mid n0 hg
      exact ⟨by rw [hxm]; exact h1, h2, h3,
        Or.inr ⟨m, hm, by rw [hxm]; exact hmid, rfl⟩⟩
  · rw [alGet_alModify_ne hxm] at hx
    exact nodeShape_ensure h mid x n hx

theorem nodeShape_pass1Step {L : List MsgMeta} {ns : List (String × Node)}
    {m : MsgMeta} (h : NodeShape L ns) (hm : m ∈ L) :
    NodeShape L (pass1Step ns m) := by
  unfold pass1Step
  cases hmid : m.message_id with
  | none => exact nodeShape_refs h m.references
  | some mid => exact nodeShape_refs (nodeShape_setMsg h hm hmid) m.references

theorem nodeShape_foldl {L : List MsgMeta} :
    ∀ (L2 : List MsgMeta), (∀ a ∈ L2, a ∈ L) →
    ∀ ns, NodeShape L ns → NodeShape L (L2.foldl pass1Step ns) := by
  intro L2
  induction L2 with
  | nil => intro _ ns h; exact h
  | cons a rest ih =>
    intro hsub ns h
    exact ih (fun b hb => hsub b (List.mem_cons_of_mem a hb)) _
      (nodeShape_pass1Step h (hsub a (List.mem_cons_self a rest)))

theorem nodeShape_pass1 (L : List MsgMeta) : NodeShape L (pass1 L) :=
  nodeShape_foldl L (fun _ h => h) [] (fun x n hx => by cases hx)

/-! ## C7 stage A2: the node of a uniquely identified message -/

/-- The node of `mid` exists and carries `m`. -/
def MidHas (mid : String) (m : MsgMeta) (ns : List (String × Node)) : Prop :=
  ∃ n, alGet ns mid = some n ∧ n.msg = some m

theorem midHas_ensure {mid : String} {m : MsgMeta}
    {ns : List (String × Node)} (h : MidHas mid m ns) (id : String) :
    MidHas mid m (ensureNode ns id) := by
  obtain ⟨n, hn, hmsg⟩ := h
  refine ⟨n, ?_, hmsg⟩
  rw [alGet_ensureNode, hn]

theorem midHas_refs {mid : String} {m : MsgMeta}
    {ns : List (String × Node)} (h : MidHas mid m ns) (refs : List String) :
    MidHas mid m (refs.foldl ensureNode ns) := by
  induction refs generalizing ns with
  | nil => exact h
  | cons r rs ih => exact ih (midHas_ensure h r)

theorem midHas_setMsg_self {mid : String} {m : MsgMeta}
    (ns : List (String × Node)) :
    MidHas mid m (setMsg (ensureNode ns mid) mid m) := by
  unfold setMsg
  cases hg : alGet (ensureNode ns mid) mid with
  | none =>
    exfalso
    rw [alGet_ensureNode] at hg
    cases hg2 : alGet ns mid with
    | some n0 => rw [hg2] at hg; cases hg
    | none => rw [hg2, if_pos rfl] at hg; cases hg
  | some n0 =>
    exact ⟨{ n0 with msg := some m }, by rw [alGet_alModify_self, hg]; rfl, rfl⟩

theorem midHas_established {mid : String} {m : MsgMeta}
    {ns : List (String × Node)} (hmid : m.message_id = some mid) :
    MidHas mid m (pass1Step ns m) := by
  unfold pass1Step
  rw [hmid]
  exact midHas_refs (midHas_setMsg_self ns) m.references

theorem midHas_pass1Step {L : List MsgMeta} {mid : String} {m m2 : MsgMeta}
    {ns : List (String × Node)}
    (huniq : ∀ a ∈ L, a.message_id = some mid → a = m)
    (hm2 : m2 ∈ L)
    (h : MidHas mid m ns) : MidHas mid m (pass1Step ns m2) := by
  unfold pass1Step
  cases hmid2 : m2.message_id with
  | none => exact midHas_refs h m2.references
  | some mid2 =>
    apply midHas_refs
    by_cases he : mid2 = mid
    · have hm2m : m2 = m := huniq m2 hm2 (by rw [hmid2, he])
      rw [he, hm2m]
      exact midHas_setMsg_self ns
    · obtain ⟨n, hn, hmsg⟩ := h
      refine ⟨n, ?_, hmsg⟩
      unfold setMsg
      rw [alGet_alModify_ne (fun hc => he hc.symm)]
      rw [alGet_ensureNode, hn]

theorem midHas_foldl {L : List MsgMeta} {mid : String} {m : MsgMeta}
    (huniq : ∀ a ∈ L, a.message_id = some mid → a = m) :
    ∀ (L2 : List MsgMeta), (∀ a ∈ L2, a ∈ L) →
    ∀ ns, MidHas mid m ns → MidHas mid m (L2.foldl pass1Step ns) := by
  intro L2
  induction L2 with
  | nil =>
    intro _ ns h
    exact h
  | cons b bs ih =>
    intro hsub ns h
    exact ih (fun a ha => hsub a (List.mem_cons_of_mem b ha)) _
      (midHas_pass1Step huniq (hsub b (List.mem_cons_self b bs)) h)

theorem midHas_pass1 {L : List MsgMeta} {mid : String} {m : MsgMeta}
    (hmem : m ∈ L) (hmid : m.message_id = some mid)
    (huniq : ∀ a ∈ L, a.message_id = some mid → a = m) :
    MidHas mid m (pass1 L) := by
  obtain ⟨L1, L2, hLeq⟩ := List.append_of_mem hmem
  unfold pass1
  rw [hLeq, List.foldl_append, List.foldl_cons]
  exact midHas_foldl huniq L2
    (fun a ha => by
      rw [hLeq]
      exact List.mem_append_right L1 (List.mem_cons_of_mem m ha))
    _ (midHas_established hmid)

/-! ## C7 stage B: pass2 characterization -/

theorem pass2Step_eq (ns : List (String × Node)) (m2 : MsgMeta) :
    pass2Step ns m2 = ns ∨
    ∃ mid2 pid2, m2.message_id = some mid2 ∧ parentRef m2 = some pid2 ∧
      (alGet ns pid2).isSome = true ∧
      pass2Step ns m2 =
        alModify (alModify ns mid2 (fun n => { n with parent := some pid2 }))
          pid2 (fun n => { n with children := n.children ++ [mid2] }) := by
  unfold pass2Step
  cases hmid2 : m2.message_id with
  | none => exact Or.inl rfl
  | some mid2 =>
    cases hpr : parentRef m2 with
    | none => exact Or.inl rfl
    | some pid2 =>
      by_cases hc : (alGet ns pid2).isSome
      · refine Or.inr ⟨mid2, pid2, rfl, rfl, hc, ?_⟩
        dsimp only
        rw [if_pos hc]
      · refine Or.inl ?_
        dsimp only
        rw [if_neg hc]

theorem map_proj_alModify {β : Type} {g : Node → β} {f : Node → Node}
    (hf : ∀ n, g (f n) = g n) (ns : List (String × Node)) (k x : String) :
    (alGet (alModify ns k f) x).map g = (alGet ns x).map g := by
  by_cases hx : x = k
  · rw [hx, alGet_alModify_self]
    cases alGet ns k with
    | none => rfl
    | some n =>
      simp only [Option.map]
      rw [hf]
  · rw [alGet_alModify_ne hx]

theorem isSome_alModify (ns : List (String × Node)) (k : String)
    (f : Node → Node) (x : String) :
    (alGet (alModify ns k f) x).isSome = (alGet ns x).isSome := by
  by_cases hx : x = k
  · rw [hx, alGet_alModify_self]
    cases alGet ns k with
    | none => rfl
    | some n => rfl
  · rw [alGet_alModify_ne hx]

theorem pass2Step_proj {β : Type} (g : Node → β)
    (hp : ∀ n q, g { n with parent := some q } = g n)
    (hc : ∀ n c, g { n with children := n.children ++ [c] } = g n)
    (ns : List (String × Node)) (m2 : MsgMeta) (x : String) :
    (alGet (pass2Step ns m2) x).map g = (alGet ns x).map g := by
  rcases pass2Step_eq ns m2 with heq | ⟨mid2, pid2, _, _, _, heq⟩
  · rw [heq]
  · rw [heq, map_proj_alModify (fun n => hc n mid2),
      map_proj_alModify (fun n => hp n pid2)]

theorem pass2_proj {β : Type} (g : Node → β)
    (hp : ∀ n q, g { n with parent := some q } = g n)
    (hc : ∀ n c, g { n with children := n.children ++ [c] } = g n)
    (ns : List (String × Node)) (L2 : List MsgMeta) (x : String) :
    (alGet (pass2 ns L2) x).map g = (alGet ns x).map g := by
  induction L2 generalizing ns with
  | nil => rfl
  | cons b bs ih =>
    unfold pass2 at ih ⊢
    rw [List.foldl_cons, ih, pass2Step_proj g hp hc]

theorem pass2Step_isSome (ns : List (String × Node)) (m2 : MsgMeta)
    (x : String) :
    (alGet (pass2Step ns m2) x).isSome = (alGet ns x).isSome := by
  rcases pass2Step_eq ns m2 with heq | ⟨mid2, pid2, _, _, _, heq⟩
  · rw [heq]
  · rw [heq, isSome_alModify, isSome_alModify]

theorem pass2_isSome (ns : List (String × Node)) (L2 : List MsgMeta)
    (x : String) :
    (alGet (pass2 ns L2) x).isSome = (alGet ns x).isSome := by
  induction L2 generalizing ns with
  | nil => rfl
  | cons b bs ih =>
    unfold pass2 at ih ⊢
    rw [List.foldl_cons, ih, pass2Step_isSome]

theorem pass2_msg (ns : List (String × Node)) (L2 : List MsgMeta)
    (x : String) :
    (alGet (pass2 ns L2) x).map Node.msg = (alGet ns x).map Node.msg :=
  pass2_proj Node.msg (fun _ _ => rfl) (fun _ _ => rfl) ns L2 x

theorem pass2_mid (ns : List (String × Node)) (L2 : List MsgMeta)
    (x : String) :
    (alGet (pass2 ns L2) x).map Node.mid = (alGet ns x).map Node.mid :=
  pass2_proj Node.mid (fun _ _ => rfl) (fun _ _ => rfl) ns L2 x

/-- After linking, every child edge comes from a message of the input whose
Message-ID is the child and whose parent reference is the edge's source. -/
def ChildShape (L : List MsgMeta) (ns : List (String × Node)) : Prop :=
  ∀ x n c, alGet ns x = some n → c ∈ n.children →
    ∃ m', m' ∈ L ∧ m'.message_id = some c ∧ parentRef m' = some x

/-- Every parent pointer comes from a message of the input whose Message-ID
is the node and whose parent reference is the pointer's target. -/
def ParentShape (L : List MsgMeta) (ns : List (String × Node)) : Prop :=
  ∀ x n q, alGet ns x = some n → n.parent = some q →
    ∃ m', m' ∈ L ∧ m'.message_id = some x ∧ parentRef m' = some q

theorem childShape_pass2Step {L : List MsgMeta} {ns : List (String × Node)}
    {m2 : MsgMeta} (h : ChildShape L ns) (hm2 : m2 ∈ L) :
    ChildShape L (pass2Step ns m2) := by
  rcases pass2Step_eq ns m2 with heq | ⟨mid2, pid2, hmid2, hpr2, hcond, heq⟩
  · rw [heq]
    exact h
  · rw [heq]
    intro x n c hx hc
    by_cases hxp : x = pid2
    · rw [hxp] at hx ⊢
      rw [alGet_alModify_self] at hx
      cases hg : alGet (alModify ns mid2
          (fun n => { n with parent := some pid2 })) pid2 with
      | none =>
        rw [hg] at hx
        cases hx
      | some n1 =>
        rw [hg] at hx
        have hx2 : some ({ n1 with children := n1.children ++ [mid2] } : Node)
            = some n := hx
        cases hx2
        rcases List.mem_append.mp hc with hcold | hcnew
        · by_cases hpm : pid2 = mid2
          · rw [hpm, alGet_alModify_self] at hg
            cases hg0 : alGet ns mid2 with
            | none =>
              rw [hg0] at hg
              cases hg
            | some n0 =>
              rw [hg0] at hg
              have hg2 : some ({ n0 with parent := some mid2 } : Node)
                  = some n1 := hg
              cases hg2
              rw [hpm]
              exact h mid2 n0 c hg0 hcold
          · rw [alGet_alModify_ne hpm] at hg
            exact h pid2 n1 c hg hcold
        · have hc2 : c = mid2 := List.mem_singleton.mp hcnew
          exact ⟨m2, hm2, by rw [hc2]; exact hmid2, hpr2⟩
    · rw [alGet_alModify_ne hxp] at hx
      by_cases hxm : x = mid2
      · rw [hxm] at hx ⊢
        rw [alGet_alModify_self] at hx
        cases hg0 : alGet ns mid2 with
        | none =>
          rw [hg0] at hx
          cases hx
        | some n0 =>
          rw [hg0] at hx
          have hx2 : some ({ n0 with parent := some pid2 } : Node) = some n :=
            hx
          cases hx2
          exact h mid2 n0 c hg0 hc
      · rw [alGet_alModify_ne hxm] at hx
        exact h x n c hx hc

theorem parentShape_pass2Step {L : List MsgMeta} {ns : List (String × Node)}
    {m2 : MsgMeta} (h : ParentShape L ns) (hm2 : m2 ∈ L) :
    ParentShape L (pass2Step ns m2) := by
  rcases pass2Step_eq ns m2 with heq | ⟨mid2, pid2, hmid2, hpr2, hcond, heq⟩
  · rw [heq]
    exact h
  · rw [heq]
    intro x n q hx hq
    by_cases hxp : x = pid2
    · rw [hxp] at hx ⊢
      rw [alGet_alModify_self] at hx
      cases hg : alGet (alModify ns mid2
          (fun n => { n with parent := some pid2 })) pid2 with
      | none =>
        rw [hg] at hx
        cases hx
      | some n1 =>
        rw [hg] at hx
        have hx2 : some ({ n1 with children := n1.children ++ [mid2] } : Node)
            = some n := hx
        cases hx2
        have hq1 : n1.parent = some q := hq
        by_cases hpm : pid2 = mid2
        · rw [hpm, alGet_alModify_self] at hg
          cases hg0 : alGet ns mid2 with
          | none =>
            rw [hg0] at hg
            cases hg
          | some n0 =>
            rw [hg0] at hg
            have hg2 : some ({ n0 with parent := some mid2 } : Node) = some n1 :=
              hg
            cases hg2
            have hq2 : some mid2 = some q := hq1
            cases hq2
            rw [hpm]
            exact ⟨m2, hm2, hmid2, by rw [← hpm]; exact hpr2⟩
        · rw [alGet_alModify_ne hpm] at hg
          exact h pid2 n1 q hg hq1
    · rw [alGet_alModify_ne hxp] at hx
      by_cases hxm : x = mid2
      · rw [hxm] at hx ⊢
        rw [alGet_alModify_self] at hx
        cases hg0 : alGet ns mid2 with
        | none =>
          rw [hg0] at hx
          cases hx
        | some n0 =>
          rw [hg0] at hx
          have hx2 : some ({ n0 with parent := some pid2 } : Node) = some n :=
            hx
          cases hx2
          have hq2 : some pid2 = some q := hq
          cases hq2
          exact ⟨m2, hm2, hmid2, hpr2⟩
      · rw [alGet_alModify_ne hxm] at hx
        exact h x n q hx hq

theorem childShape_pass2 {L : List MsgMeta} {ns : List (String × Node)}
    (h : ChildShape L ns) :
    ∀ (L2 : List MsgMeta), (∀ a ∈ L2, a ∈ L) →
      ChildShape L (L2.foldl pass2Step ns) := by
  intro L2
  induction L2 generalizing ns with
  | nil =>
    intro _
    exact h
  | cons b bs ih =>
    intro hsub
    exact ih (childShape_pass2Step h (hsub b (List.mem_cons_self b bs)))
      (fun a ha => hsub a (List.mem_cons_of_mem b ha))

theorem parentShape_pass2 {L : List MsgMeta} {ns : List (String × Node)}
    (h : ParentShape L ns) :
    ∀ (L2 : List MsgMeta), (∀ a ∈ L2, a ∈ L) →
      ParentShape L (L2.foldl pass2Step ns) := by
  intro L2
  induction L2 generalizing ns with
  | nil =>
    intro _
    exact h
  | cons b bs ih =>
    intro hsub
    exact ih (parentShape_pass2Step h (hsub b (List.mem_cons_self b bs)))
      (fun a ha => hsub a (List.mem_cons_of_mem b ha))

theorem childShape_nodes (L : List MsgMeta) :
    ChildShape L (pass2 (pass1 L) L) := by
  unfold pass2
  apply childShape_pass2 ?_ L (fun _ h => h)
  intro x n c hx hc
  exfalso
  have := (nodeShape_pass1 L x n hx).2.2.1
  rw [this] at hc
  cases hc

theorem parentShape_nodes (L : List MsgMeta) :
    ParentShape L (pass2 (pass1 L) L) := by
  unfold pass2
  apply parentShape_pass2 ?_ L (fun _ h => h)
  intro x n q hx hq
  exfalso
  have := (nodeShape_pass1 L x n hx).2.1
  rw [this] at hq
  cases hq

/-! ## C7 stage B3: the dangling message's node after pass 2 -/

/-- Case A: the node of `mid` exists, is linked to the placeholder `p`, and
carries `m`. -/
def MidLinked (mid p : String) (m : MsgMeta) (ns : List (String × Node)) :
    Prop :=
  ∃ n, alGet ns mid = some n ∧ n.parent = some p ∧ n.msg = some m

/-- Case B: the node of `mid` exists, has no parent, and carries `m`. -/
def MidFree (mid : String) (m : MsgMeta) (ns : List (String × Node)) : Prop :=
  ∃ n, alGet ns mid = some n ∧ n.parent = none ∧ n.msg = some m

theorem midLinked_pass2Step {L : List MsgMeta} {mid p : String} {m m2 : MsgMeta}
    {ns : List (String × Node)}
    (huniq : ∀ a ∈ L, a.message_id = some mid → a = m)
    (hpar : parentRef m = some p)
    (hmidp : mid ≠ p)
    (hm2 : m2 ∈ L)
    (h : MidLinked mid p m ns) : MidLinked mid p m (pass2Step ns m2) := by
  rcases pass2Step_eq ns m2 with heq | ⟨mid2, pid2, hmid2, hpr2, hcond, heq⟩
  · rw [heq]
    exact h
  · rw [heq]
    obtain ⟨n, hn, hpp, hmsg⟩ := h
    by_cases hmm : mid2 = mid
    · have hm2m : m2 = m := huniq m2 hm2 (by rw [hmid2, hmm])
      have hps : some p = some pid2 := by
        rw [hm2m, hpar] at hpr2
        exact hpr2
      cases hps
      rw [hmm]
      refine ⟨{ n with parent := some p }, ?_, rfl, hmsg⟩
      rw [alGet_alModify_ne hmidp, alGet_alModify_self, hn]
      rfl
    · have hinner : alGet (alModify ns mid2
          (fun n => { n with parent := some pid2 })) mid = some n :=
        by rw [alGet_alModify_ne (fun hc => hmm hc.symm)]; exact hn
      by_cases hmp : mid = pid2
      · refine ⟨{ n with children := n.children ++ [mid2] }, ?_, hpp, hmsg⟩
        rw [hmp] at hinner ⊢
        rw [alGet_alModify_self, hinner]
        rfl
      · exact ⟨n, by rw [alGet_alModify_ne hmp]; exact hinner, hpp, hmsg⟩

theorem midFree_pass2Step {L : List MsgMeta} {mid p : String} {m m2 : MsgMeta}
    {ns : List (String × Node)}
    (huniq : ∀ a ∈ L, a.message_id = some mid → a = m)
    (hpar : parentRef m = some p)
    (hm2 : m2 ∈ L)
    (hpn : (alGet ns p).isSome = false)
    (h : MidFree mid m ns) : MidFree mid m (pass2Step ns m2) := by
  rcases pass2Step_eq ns m2 with heq | ⟨mid2, pid2, hmid2, hpr2, hcond, heq⟩
  · rw [heq]
    exact h
  · rw [heq]
    obtain ⟨n, hn, hpp, hmsg⟩ := h
    by_cases hmm : mid2 = mid
    · exfalso
      have hm2m : m2 = m := huniq m2 hm2 (by rw [hmid2, hmm])
      have hps : some p = some pid2 := by
        rw [hm2m, hpar] at hpr2
        exact hpr2
      cases hps
      rw [hcond] at hpn
      cases hpn
    · have hinner : alGet (alModify ns mid2
          (fun n => { n with parent := some pid2 })) mid = some n :=
        by rw [alGet_alModify_ne (fun hc => hmm hc.symm)]; exact hn
      by_cases hmp : mid = pid2
      · refine ⟨{ n with children := n.children ++ [mid2] }, ?_, hpp, hmsg⟩
        rw [hmp] at hinner ⊢
        rw [alGet_alModify_self, hinner]
        rfl
      · exact ⟨n, by rw [alGet_alModify_ne hmp]; exact hinner, hpp, hmsg⟩

theorem midLinked_foldl {L : List MsgMeta} {mid p : String} {m : MsgMeta}
    (huniq : ∀ a ∈ L, a.message_id = some mid → a = m)
    (hpar : parentRef m = some p) (hmidp : mid ≠ p) :
    ∀ (L2 : List MsgMeta), (∀ a ∈ L2, a ∈ L) →
    ∀ ns, MidLinked mid p m ns →
      MidLinked mid p m (L2.foldl pass2Step ns) := by
  intro L2
  induction L2 with
  | nil =>
    intro _ ns h
    exact h
  | cons b bs ih =>
    intro hsub ns h
    exact ih (fun a ha => hsub a (List.mem_cons_of_mem b ha)) _
      (midLinked_pass2Step huniq hpar hmidp
        (hsub b (List.mem_cons_self b bs)) h)

theorem midFree_foldl {L : List MsgMeta} {mid p : String} {m : MsgMeta}
    (huniq : ∀ a ∈ L, a.message_id = some mid → a = m)
    (hpar : parentRef m = some p) :
    ∀ (L2 : List MsgMeta), (∀ a ∈ L2, a ∈ L) →
    ∀ ns, (alGet ns p).isSome = false → MidFree mid m ns →
      MidFree mid m (L2.foldl pass2Step ns) := by
  intro L2
  induction L2 with
  | nil =>
    intro _ ns _ h
    exact h
  | cons b bs ih =>
    intro hsub ns hpn h
    refine ih (fun a ha => hsub a (List.mem_cons_of_mem b ha)) _ ?_
      (midFree_pass2Step huniq hpar (hsub b (List.mem_cons_self b bs)) hpn h)
    rw [pass2Step_isSome]
    exact hpn

theorem midLinked_established {mid p : String} {m : MsgMeta}
    {ns : List (String × Node)}
    (hmid : m.message_id = some mid) (hpar : parentRef m = some p)
    (hmidp : mid ≠ p)
    (hpSome : (alGet ns p).isSome = true)
    (hhas : MidHas mid m ns) :
    MidLinked mid p m (pass2Step ns m) := by
  obtain ⟨n, hn, hmsg⟩ := hhas
  unfold pass2Step
  rw [hmid]
  dsimp only
  rw [hpar]
  dsimp only
  rw [if_pos hpSome]
  refine ⟨{ n with parent := some p }, ?_, rfl, hmsg⟩
  rw [alGet_alModify_ne hmidp, alGet_alModify_self, hn]
  rfl

theorem midHas_pass2_foldl {mid : String} {m : MsgMeta}
    (ns : List (String × Node)) (L1 : List MsgMeta)
    (h : MidHas mid m ns) : MidHas mid m (L1.foldl pass2Step ns) := by
  obtain ⟨n, hn, hmsg⟩ := h
  have hmap := pass2_msg ns L1 mid
  unfold pass2 at hmap
  rw [hn] at hmap
  cases hg : alGet (L1.foldl pass2Step ns) mid with
  | none =>
    rw [hg] at hmap
    cases hmap
  | some n2 =>
    rw [hg] at hmap
    refine ⟨n2, hg, ?_⟩
    have h2 : some n2.msg = some n.msg := hmap
    rw [Option.some.inj h2]
    exact hmsg

theorem midLinked_nodes {L : List MsgMeta} {mid p : String} {m : MsgMeta}
    (hmem : m ∈ L) (hmid : m.message_id = some mid)
    (hpar : parentRef m = some p)
    (huniq : ∀ a ∈ L, a.message_id = some mid → a = m)
    (hmidp : mid ≠ p)
    (hpSome : (alGet (pass1 L) p).isSome = true) :
    MidLinked mid p m (pass2 (pass1 L) L) := by
  obtain ⟨L1, L2, hLeq⟩ := List.append_of_mem hmem
  subst hLeq
  unfold pass2
  rw [List.foldl_append, List.foldl_cons]
  apply midLinked_foldl huniq hpar hmidp L2
    (fun a ha => List.mem_append_right L1 (List.mem_cons_of_mem m ha))
  apply midLinked_established hmid hpar hmidp
  · have h2 := pass2_isSome (pass1 (L1 ++ m :: L2)) L1 p
    unfold pass2 at h2
    rw [h2]
    exact hpSome
  · exact midHas_pass2_foldl (pass1 (L1 ++ m :: L2)) L1
      (midHas_pass1 hmem hmid huniq)

theorem midFree_nodes {L : List MsgMeta} {mid p : String} {m : MsgMeta}
    (hmem : m ∈ L) (hmid : m.message_id = some mid)
    (hpar : parentRef m = some p)
    (huniq : ∀ a ∈ L, a.message_id = some mid → a = m)
    (hpNone : (alGet (pass1 L) p).isSome = false) :
    MidFree mid m (pass2 (pass1 L) L) := by
  unfold pass2
  apply midFree_foldl huniq hpar L (fun _ h => h) (pass1 L) hpNone
  obtain ⟨n, hn, hmsg⟩ := midHas_pass1 hmem hmid huniq
  exact ⟨n, hn, (nodeShape_pass1 L mid n hn).2.1, hmsg⟩

/-! ## C7 stage C: node-map keys and roots -/

theorem nodup_keys_ensure {ns : List (String × Node)} {id : String}
    (h : (keysOf ns).Nodup) : (keysOf (ensureNode ns id)).Nodup := by
  unfold ensureNode
  by_cases hc : (alGet ns id).isSome
  · rw [if_pos hc]
    exact h
  · rw [if_neg hc]
    have hk : keysOf (ns ++ [(id, emptyNode id)]) = keysOf ns ++ [id] := by
      unfold keysOf
      rw [List.map_append]
      rfl
    rw [hk]
    rw [List.nodup_append]
    refine ⟨h, List.nodup_singleton id, ?_⟩
    intro a ha haid
    rw [List.mem_singleton] at haid
    rw [haid] at ha
    rw [← alGet_isSome_iff_mem_keys] at ha
    exact hc ha

theorem nodup_keys_refs {ns : List (String × Node)} (refs : List String)
    (h : (keysOf ns).Nodup) :
    (keysOf (refs.foldl ensureNode ns)).Nodup := by
  induction refs generalizing ns with
  | nil => exact h
  | cons r rs ih => exact ih (nodup_keys_ensure h)

theorem nodup_keys_pass1Step {ns : List (String × Node)} {m2 : MsgMeta}
    (h : (keysOf ns).Nodup) : (keysOf (pass1Step ns m2)).Nodup := by
  unfold pass1Step
  cases hmid : m2.message_id with
  | none => exact nodup_keys_refs m2.references h
  | some mid2 =>
    apply nodup_keys_refs m2.references
    unfold setMsg
    have hkm : keysOf (alModify (ensureNode ns mid2)
        mid2 (fun n => { n with msg := some m2 })) =
        keysOf (ensureNode ns mid2) := keysOf_alModify
    rw [hkm]
    exact nodup_keys_ensure h

theorem nodup_keys_pass1 (L : List MsgMeta) :
    (keysOf (pass1 L)).Nodup := by
  unfold pass1
  have : ∀ (L2 : List MsgMeta) (ns : List (String × Node)),
      (keysOf ns).Nodup → (keysOf (L2.foldl pass1Step ns)).Nodup := by
    intro L2
    induction L2 with
    | nil =>
      intro ns h
      exact h
    | cons b bs ih =>
      intro ns h
      exact ih _ (nodup_keys_pass1Step h)
  exact this L [] (by simp [keysOf])

theorem keysOf_pass2Step (ns : List (String × Node)) (m2 : MsgMeta) :
    keysOf (pass2Step ns m2) = keysOf ns := by
  rcases pass2Step_eq ns m2 with heq | ⟨mid2, pid2, _, _, _, heq⟩
  · rw [heq]
  · rw [heq, keysOf_alModify, keysOf_alModify]

theorem keysOf_pass2 (ns : List (String × Node)) (L2 : List MsgMeta) :
    keysOf (pass2 ns L2) = keysOf ns := by
  induction L2 generalizing ns with
  | nil => rfl
  | cons b bs ih =>
    unfold pass2 at ih ⊢
    rw [List.foldl_cons, ih, keysOf_pass2Step]

theorem nodup_keys_nodes (L : List MsgMeta) :
    (keysOf (pass2 (pass1 L) L)).Nodup := by
  rw [keysOf_pass2]
  exact nodup_keys_pass1 L

/-- The `mid` field of every node mirrors its key, also after pass 2. -/
theorem nodes_mid (L : List MsgMeta) :
    ∀ x n, alGet (pass2 (pass1 L) L) x = some n → n.mid = x := by
  intro x n hx
  have hmap := pass2_mid (pass1 L) L x
  rw [hx] at hmap
  cases hg : alGet (pass1 L) x with
  | none =>
    rw [hg] at hmap
    cases hmap
  | some n1 =>
    rw [hg] at hmap
    have h2 : some n.mid = some n1.mid := hmap
    rw [Option.some.inj h2]
    exact (nodeShape_pass1 L x n1 hg).1

/-- A message attached to a node of the final node map is an input message
whose Message-ID is the node's key. -/
theorem nodes_msg (L : List MsgMeta) :
    ∀ x n m2, alGet (pass2 (pass1 L) L) x = some n → n.msg = some m2 →
      m2 ∈ L ∧ m2.message_id = some x := by
  intro x n m2 hx hmsg
  have hmap := pass2_msg (pass1 L) L x
  rw [hx] at hmap
  cases hg : alGet (pass1 L) x with
  | none =>
    rw [hg] at hmap
    cases hmap
  | some n1 =>
    rw [hg] at hmap
    have h2 : some n.msg = some n1.msg := hmap
    have h3 : n1.msg = some m2 := by
      rw [← Option.some.inj h2]
      exact hmsg
    rcases (nodeShape_pass1 L x n1 hg).2.2.2 with hnone | ⟨m3, hm3, hid3, hmsg3⟩
    · rw [hnone] at h3
      cases h3
    · rw [hmsg3] at h3
      have h4 : m3 = m2 := Option.some.inj h3
      rw [← h4]
      exact ⟨hm3, hid3⟩

/-- Every root names a node without parent carrying a message. -/
theorem rootsOf_spec (L : List MsgMeta) {r : String}
    (hr : r ∈ rootsOf (pass2 (pass1 L) L)) :
    ∃ nr, alGet (pass2 (pass1 L) L) r = some nr ∧ nr.parent = none ∧
      nr.msg.isSome = true := by
  unfold rootsOf at hr
  rw [List.mem_filterMap] at hr
  obtain ⟨pair, hpmem, hcond⟩ := hr
  by_cases hc : (pair.2.parent.isNone && pair.2.msg.isSome) = true
  · rw [if_pos hc] at hcond
    have hmid : pair.2.mid = r := Option.some.inj hcond
    have hget : alGet (pass2 (pass1 L) L) pair.1 = some pair.2 := by
      apply mem_alGet_of_nodup (nodup_keys_nodes L)
      rw [Prod.mk.eta]
      exact hpmem
    have hkey : pair.2.mid = pair.1 := nodes_mid L pair.1 pair.2 hget
    rw [Bool.and_eq_true] at hc
    refine ⟨pair.2, ?_, ?_, hc.2⟩
    · rw [← hmid, hkey]
      exact hget
    · rw [← Option.isNone_iff_eq_none]
      exact hc.1
  · rw [if_neg hc] at hcond
    cases hcond

/-! ## C7 stage D: the traversal never reaches the dangling message -/

theorem collect_no_mid {N2 : List (String × Node)} {mid : String}
    (Avoid : String → Prop)
    (h1 : ∀ x n c, alGet N2 x = some n → ¬ Avoid x → c ∈ n.children →
      ¬ Avoid c)
    (h2 : ∀ x n m2, alGet N2 x = some n → ¬ Avoid x → n.msg = some m2 →
      m2.message_id ≠ some mid) :
    ∀ fuel x, ¬ Avoid x → ∀ m2 ∈ collect_inorder N2 fuel x,
      m2.message_id ≠ some mid := by
  intro fuel
  induction fuel with
  | zero =>
    intro x _ m2 hm2
    cases hm2
  | succ f ih =>
    intro x hax m2 hm2
    unfold collect_inorder at hm2
    cases hg : alGet N2 x with
    | none =>
      rw [hg] at hm2
      cases hm2
    | some n =>
      rw [hg] at hm2
      dsimp only at hm2
      rw [mem_foldl_append] at hm2
      rcases hm2 with hm2 | ⟨c, hcmem, hm2⟩
      · cases hmsg : n.msg with
        | none =>
          rw [hmsg] at hm2
          cases hm2
        | some mh =>
          rw [hmsg] at hm2
          have hme : m2 = mh := List.mem_singleton.mp hm2
          rw [hme]
          exact h2 x n mh hg hax hmsg
      · have hcch : c ∈ n.children := mem_stSort.mp hcmem
        exact ih c (h1 x n c hg hax hcch) m2 hm2

/-! ## C7 stage E: the root-collection map and the orphan pass -/

theorem alGet_alPush_ne {b : List (String × List α)} {k k2 : String} {x : α}
    (h : k2 ≠ k) : alGet (alPush b k x) k2 = alGet b k2 := by
  unfold alPush
  by_cases hc : (alGet b k).isSome
  · rw [if_pos hc, alGet_alModify_ne h]
  · rw [if_neg hc]
    cases hg : alGet b k2 with
    | some v => exact alGet_append_left hg
    | none =>
      rw [alGet_append_right hg]
      simp only [alGet, if_neg (fun hc2 : k = k2 => h hc2.symm)]

theorem alGet_alPush_none {b : List (String × List α)} {k : String} {x : α}
    (h : alGet b k = none) : alGet (alPush b k x) k = some [x] := by
  unfold alPush
  rw [h]
  show alGet (b ++ [(k, [x])]) k = some [x]
  rw [alGet_append_right h]
  simp [alGet]

theorem foldl_insertRep_pres (f : String → List MsgMeta) (mid : String) :
    ∀ (roots : List String) (acc : List (String × List MsgMeta)),
    alGet acc mid = some (f mid) →
    alGet (roots.foldl (fun out root => alInsertRep out root (f root)) acc)
      mid = some (f mid) := by
  intro roots
  induction roots with
  | nil =>
    intro acc h
    exact h
  | cons r rs ih =>
    intro acc h
    rw [List.foldl_cons]
    apply ih
    by_cases hr : r = mid
    · rw [hr]
      rw [alGet_alInsertRep_self]
    · rw [alGet_alInsertRep_ne (fun hc => hr hc.symm)]
      exact h

theorem foldl_insertRep_mem (f : String → List MsgMeta) (mid : String) :
    ∀ (roots : List String), mid ∈ roots →
    ∀ acc, alGet (roots.foldl (fun out root => alInsertRep out root (f root))
      acc) mid = some (f mid) := by
  intro roots
  induction roots with
  | nil =>
    intro h
    cases h
  | cons r rs ih =>
    intro hmem acc
    rw [List.foldl_cons]
    by_cases hr : mid ∈ rs
    · exact ih hr _
    · have hrm : r = mid := by
        rcases List.mem_cons.mp hmem with h | h
        · exact h.symm
        · exact absurd h hr
      apply foldl_insertRep_pres
      rw [hrm, alGet_alInsertRep_self]

theorem foldl_insertRep_ne (f : String → List MsgMeta) (mid : String) :
    ∀ (roots : List String), (∀ r ∈ roots, r ≠ mid) →
    ∀ acc, alGet (roots.foldl (fun out root => alInsertRep out root (f root))
      acc) mid = alGet acc mid := by
  intro roots
  induction roots with
  | nil =>
    intro _ acc
    rfl
  | cons r rs ih =>
    intro hne acc
    rw [List.foldl_cons, ih (fun a ha => hne a (List.mem_cons_of_mem r ha))]
    rw [alGet_alInsertRep_ne
      (fun hc => hne r (List.mem_cons_self r rs) hc.symm)]

theorem foldl_insertRep_pairs (f : String → List MsgMeta) :
    ∀ (roots : List String) (acc : List (String × List MsgMeta))
      (q : String × List MsgMeta),
    q ∈ roots.foldl (fun out root => alInsertRep out root (f root)) acc →
    q ∈ acc ∨ ∃ r ∈ roots, q = (r, f r) := by
  intro roots
  induction roots with
  | nil =>
    intro acc q h
    exact Or.inl h
  | cons r rs ih =>
    intro acc q h
    rw [List.foldl_cons] at h
    rcases ih _ q h with h2 | ⟨r2, hr2, he2⟩
    · rcases alInsertRep_mem_sub h2 with h3 | h3
      · exact Or.inl h3
      · exact Or.inr ⟨r, List.mem_cons_self r rs, h3⟩
    · exact Or.inr ⟨r2, List.mem_cons_of_mem r hr2, he2⟩

theorem contains_iff_mem {l : List String} {a : String} :
    l.contains a = true ↔ a ∈ l :=
  List.elem_iff

theorem orphan_fold_ne {seenL : List String} {mid : String} :
    ∀ (pairs : List (String × Node)), (∀ q ∈ pairs, q.1 ≠ mid) →
    (∀ q ∈ pairs, ∀ m2, q.2.msg = some m2 → m2.message_id = some q.1) →
    ∀ acc, alGet (pairs.foldl (orphanStep seenL) acc) mid = alGet acc mid := by
  intro pairs
  induction pairs with
  | nil =>
    intro _ _ acc
    rfl
  | cons q qs ih =>
    intro hkeys hmsg acc
    rw [List.foldl_cons,
      ih (fun a ha => hkeys a (List.mem_cons_of_mem q ha))
        (fun a ha => hmsg a (List.mem_cons_of_mem q ha))]
    unfold orphanStep
    cases hm : q.2.msg with
    | none => rfl
    | some m2 =>
      have hid : m2.message_id = some q.1 :=
        hmsg q (List.mem_cons_self q qs) m2 hm
      dsimp only
      rw [hid]
      dsimp only
      by_cases hs : seenL.contains q.1
      · rw [if_pos hs]
      · rw [if_neg hs]
        exact alGet_alPush_ne (hkeys q (List.mem_cons_self q qs)).symm

theorem orphan_fold_keep {seenL : List String} {mid : String} {m : MsgMeta} :
    ∀ (pairs : List (String × Node)),
    (∀ q ∈ pairs, ∀ m2, q.2.msg = some m2 → m2.message_id = some q.1) →
    seenL.contains mid = true →
    ∀ acc, alGet acc mid = some [m] →
    alGet (pairs.foldl (orphanStep seenL) acc) mid = some [m] := by
  intro pairs
  induction pairs with
  | nil =>
    intro _ _ acc h
    exact h
  | cons q qs ih =>
    intro hmsg hseen acc h
    rw [List.foldl_cons]
    apply ih (fun a ha => hmsg a (List.mem_cons_of_mem q ha)) hseen
    unfold orphanStep
    cases hm : q.2.msg with
    | none => exact h
    | some m2 =>
      have hid : m2.message_id = some q.1 :=
        hmsg q (List.mem_cons_self q qs) m2 hm
      simp only [hid]
      by_cases hq : q.1 = mid
      · rw [hq, hseen]
        rw [if_pos rfl]
        exact h
      · by_cases hs : seenL.contains q.1 = true
        · rw [if_pos hs]
          exact h
        · rw [if_neg hs]
          rw [alGet_alPush_ne (fun hc => hq hc.symm)]
          exact h

theorem orphan_fold_result {seenL : List String} {mid : String} {m : MsgMeta}
    {N2 : List (String × Node)} {nA : Node}
    {acc : List (String × List MsgMeta)}
    (hN : alGet N2 mid = some nA) (hmsgA : nA.msg = some m)
    (hmidA : m.message_id = some mid)
    (hnd : (keysOf N2).Nodup)
    (hothers : ∀ q ∈ N2, ∀ m2, q.2.msg = some m2 → m2.message_id = some q.1)
    (hacc : alGet acc mid = none)
    (hseen : seenL.contains mid = false) :
    alGet (N2.foldl (orphanStep seenL) acc) mid = some [m] := by
  obtain ⟨pre, post, hsplit, hpre⟩ := alGet_split hN
  have hpost : ∀ q ∈ post, q.1 ≠ mid := by
    intro q hq he
    rw [hsplit] at hnd
    unfold keysOf at hnd
    rw [List.map_append, List.map_cons] at hnd
    rcases List.nodup_append.mp hnd with ⟨_, hnd2, _⟩
    rcases List.nodup_cons.mp hnd2 with ⟨hnotin, _⟩
    apply hnotin
    rw [← he]
    exact List.mem_map.mpr ⟨q, hq, rfl⟩
  have hothers2 := hothers
  rw [hsplit]
  rw [List.foldl_append, List.foldl_cons]
  have hosub : ∀ q ∈ pre, q ∈ N2 := by
    intro q hq
    rw [hsplit]
    exact List.mem_append_left _ hq
  have hpsub : ∀ q ∈ post, q ∈ N2 := by
    intro q hq
    rw [hsplit]
    exact List.mem_append_right _ (List.mem_cons_of_mem _ hq)
  rw [orphan_fold_ne post hpost
    (fun a ha => hothers a (hpsub a ha))]
  have hpreres : alGet (pre.foldl (orphanStep seenL) acc) mid = none := by
    rw [orphan_fold_ne pre hpre (fun a ha => hothers a (hosub a ha))]
    exact hacc
  generalize hacc2 : pre.foldl (orphanStep seenL) acc = acc2 at hpreres ⊢
  unfold orphanStep
  rw [hmsgA]
  simp only [hmidA, hseen]
  rw [if_neg (by decide : ¬ (false = true))]
  exact alGet_alPush_none hpreres

/-! ## C7: assembling the jwz-level result -/

/-- The node map `jwz_threads` builds (its first two passes). -/
def jwzNodes (L : List MsgMeta) : List (String × Node) := pass2 (pass1 L) L

/-- The root-collection map of `jwz_threads`. -/
def jwzOut0 (L : List MsgMeta) : List (String × List MsgMeta) :=
  (rootsOf (jwzNodes L)).foldl
    (fun out root => alInsertRep out root
      (collect_inorder (jwzNodes L) ((jwzNodes L).length + 1) root)) []

/-- The seen set of `jwz_threads` (ids of all collected messages). -/
def jwzSeen (L : List MsgMeta) : List String :=
  ((jwzOut0 L).foldl (fun acc p => acc ++ p.2) []).filterMap
    (fun m => m.message_id)

theorem jwz_threads_eq (L : List MsgMeta) :
    jwz_threads L = (jwzNodes L).foldl (orphanStep (jwzSeen L)) (jwzOut0 L) :=
  rfl

/-- Messages attached in the final node map carry the node's key as their
Message-ID (binding-level form). -/
theorem jwzNodes_msgprop (L : List MsgMeta) :
    ∀ q ∈ jwzNodes L, ∀ m2, q.2.msg = some m2 →
      m2.message_id = some q.1 := by
  intro q hq m2 hqm
  have hget : alGet (jwzNodes L) q.1 = some q.2 := by
    apply mem_alGet_of_nodup (nodup_keys_nodes L)
    rw [Prod.mk.eta]
    exact hq
  exact (nodes_msg L q.1 q.2 m2 hget hqm).2

/-- The jwz-level core of claim C7: a message `m` of the input whose
Message-ID `mid` is unique in the input, whose parent reference names an id
`p` carried by no input message, and to which no input message links as
parent, forms the bucket `mid ↦ [m]` of `jwz_threads`. -/
theorem jwz_dangling_singleton (L : List MsgMeta) (m : MsgMeta)
    (mid p : String)
    (hmem : m ∈ L) (hmid : m.message_id = some mid)
    (hpar : parentRef m = some p)
    (hnop : ∀ a ∈ L, a.message_id ≠ some p)
    (huniq : ∀ a ∈ L, a.message_id = some mid → a = m)
    (hnochild : ∀ a ∈ L, parentRef a ≠ some mid) :
    alGet (jwz_threads L) mid = some [m] := by
  have hmidp : mid ≠ p := fun h => hnop m hmem (by rw [hmid, h])
  have hnd := nodup_keys_nodes L
  have hmsgprop := jwzNodes_msgprop L
  rw [jwz_threads_eq]
  by_cases hp : (alGet (pass1 L) p).isSome
  · obtain ⟨nA, hnA, hparA, hmsgA⟩ :=
      midLinked_nodes hmem hmid hpar huniq hmidp hp
    have hroots : ∀ r ∈ rootsOf (jwzNodes L), r ≠ mid ∧ r ≠ p := by
      intro r hr
      obtain ⟨nr, hgr, hprn, hms⟩ := rootsOf_spec L hr
      constructor
      · intro he
        rw [he] at hgr
        rw [hnA] at hgr
        have hne : nA = nr := Option.some.inj hgr
        rw [← hne] at hprn
        rw [hparA] at hprn
        cases hprn
      · intro he
        rw [he] at hgr
        cases hms2 : nr.msg with
        | none =>
          rw [hms2] at hms
          cases hms
        | some m2 =>
          obtain ⟨hm2L, hid2⟩ := nodes_msg L p nr m2 hgr hms2
          exact hnop m2 hm2L hid2
    have hout0 : alGet (jwzOut0 L) mid = none := by
      unfold jwzOut0
      rw [foldl_insertRep_ne _ mid (rootsOf (jwzNodes L))
        (fun r hr => (hroots r hr).1) []]
      rfl
    have hseenmem : mid ∉ jwzSeen L := by
      intro hmem2
      unfold jwzSeen at hmem2
      rw [List.mem_filterMap] at hmem2
      obtain ⟨m2, hm2flat, hm2id⟩ := hmem2
      rw [mem_foldl_append] at hm2flat
      rcases hm2flat with h0 | ⟨q, hqout, hm2v⟩
      · cases h0
      · rcases foldl_insertRep_pairs _ (rootsOf (jwzNodes L)) [] q hqout
          with h0 | ⟨r, hrmem, hqe⟩
        · cases h0
        · obtain ⟨hrm, hrp⟩ := hroots r hrmem
          have hm2in : m2 ∈ collect_inorder (jwzNodes L)
              ((jwzNodes L).length + 1) r := by
            rw [hqe] at hm2v
            exact hm2v
          refine collect_no_mid (fun s => s = mid ∨ s = p) ?_ ?_
            ((jwzNodes L).length + 1) r ?_ m2 hm2in hm2id
          · intro x n c hx hax hc
            obtain ⟨m3, hm3L, hid3, hpr3⟩ := childShape_nodes L x n c hx hc
            rintro (hcm | hcp)
            · rw [hcm] at hid3
              have hm3 : m3 = m := huniq m3 hm3L hid3
              rw [hm3, hpar] at hpr3
              exact hax (Or.inr (Option.some.inj hpr3).symm)
            · rw [hcp] at hid3
              exact hnop m3 hm3L hid3
          · intro x n m3 hx hax hmsg3
            have hid3 := (nodes_msg L x n m3 hx hmsg3).2
            rw [hid3]
            intro hcontra
            exact hax (Or.inl (Option.some.inj hcontra))
          · rintro (h0 | h0)
            · exact hrm h0
            · exact hrp h0
    have hseen : (jwzSeen L).contains mid = false := by
      cases hc : (jwzSeen L).contains mid with
      | false => rfl
      | true => exact absurd (contains_iff_mem.mp hc) hseenmem
    exact orphan_fold_result hnA hmsgA hmid hnd hmsgprop hout0 hseen
  · have hpn : (alGet (pass1 L) p).isSome = false := by
      cases hc : (alGet (pass1 L) p).isSome with
      | false => rfl
      | true => exact absurd hc hp
    obtain ⟨nB, hnB, hparB, hmsgB⟩ := midFree_nodes hmem hmid hpar huniq hpn
    have hchB : nB.children = [] := by
      rw [List.eq_nil_iff_forall_not_mem]
      intro c hc
      obtain ⟨m3, hm3L, hid3, hpr3⟩ := childShape_nodes L mid nB c hnB hc
      exact hnochild m3 hm3L hpr3
    have hmidroot : mid ∈ rootsOf (jwzNodes L) := by
      unfold rootsOf
      rw [List.mem_filterMap]
      refine ⟨(mid, nB), alGet_mem hnB, ?_⟩
      have hcond : ((mid, nB).2.parent.isNone && (mid, nB).2.msg.isSome)
          = true := by
        simp [hparB, hmsgB]
      rw [if_pos hcond]
      have hmidf : nB.mid = mid := nodes_mid L mid nB hnB
      rw [hmidf]
    have hnBj : alGet (jwzNodes L) mid = some nB := hnB
    have hcollect : collect_inorder (jwzNodes L) ((jwzNodes L).length + 1)
        mid = [m] := by
      show collect_inorder (jwzNodes L) (Nat.succ (jwzNodes L).length) mid
        = [m]
      unfold collect_inorder
      rw [hnBj]
      dsimp only
      rw [hmsgB, hchB]
      rfl
    have hout0 : alGet (jwzOut0 L) mid = some [m] := by
      unfold jwzOut0
      rw [foldl_insertRep_mem _ mid (rootsOf (jwzNodes L)) hmidroot []]
      rw [hcollect]
    have hseen : (jwzSeen L).contains mid = true := by
      rw [contains_iff_mem]
      unfold jwzSeen
      rw [List.mem_filterMap]
      refine ⟨m, ?_, hmid⟩
      rw [mem_foldl_append]
      right
      exact ⟨(mid, [m]), alGet_mem hout0, List.mem_singleton.mpr rfl⟩
    exact orphan_fold_keep _ hmsgprop hseen _ hout0

/-! ## C7: bucket and thread layer of `group_into_threads` -/

theorem alGet_alExtend_ne {b : List (String × List α)} {k k2 : String}
    {xs : List α} (h : k2 ≠ k) :
    alGet (alExtend b k xs) k2 = alGet b k2 := by
  unfold alExtend
  by_cases hc : (alGet b k).isSome
  · rw [if_pos hc, alGet_alModify_ne h]
  · rw [if_neg hc]
    cases hg : alGet b k2 with
    | none =>
      rw [alGet_append_right hg]
      have hkk : ¬ k = k2 := fun hx => h hx.symm
      simp only [alGet, if_neg hkk]
    | some v => rw [alGet_append_left hg]

theorem alGet_alExtend_none {b : List (String × List α)} {k : String}
    {xs : List α} (h : alGet b k = none) :
    alGet (alExtend b k xs) k = some xs := by
  unfold alExtend
  rw [h]
  show alGet (b ++ [(k, xs)]) k = some xs
  rw [alGet_append_right h]
  simp [alGet]

theorem nodup_keys_alPush {b : List (String × List α)} {k : String} {x : α}
    (h : (keysOf b).Nodup) : (keysOf (alPush b k x)).Nodup := by
  unfold alPush
  by_cases hc : (alGet b k).isSome
  · rw [if_pos hc, keysOf_alModify]
    exact h
  · rw [if_neg hc]
    have hk : k ∉ keysOf b := fun hm =>
      hc (alGet_isSome_iff_mem_keys.mpr hm)
    have hkeys : keysOf (b ++ [(k, [x])]) = keysOf b ++ [k] := by
      unfold keysOf
      rw [List.map_append]
      rfl
    rw [hkeys]
    exact h.append (List.nodup_singleton k)
      (fun a ha hb2 => hk ((List.mem_singleton.mp hb2) ▸ ha))

theorem nodup_keys_foldl_insertRep {α2 : Type} (c : String → α2)
    (R : List String) (b : List (String × α2)) (h : (keysOf b).Nodup) :
    (keysOf (R.foldl (fun out r => alInsertRep out r (c r)) b)).Nodup := by
  induction R generalizing b with
  | nil => exact h
  | cons r rs ih => exact ih _ (nodup_keys_alInsertRep h)

theorem nodup_keys_orphanStep (seen : List String)
    (b : List (String × List MsgMeta)) (q : String × Node)
    (h : (keysOf b).Nodup) : (keysOf (orphanStep seen b q)).Nodup := by
  unfold orphanStep
  split
  · exact h
  · dsimp only
    split
    · exact h
    · exact nodup_keys_alPush h

theorem nodup_keys_orphan_fold (seen : List String)
    (N : List (String × Node)) (b : List (String × List MsgMeta))
    (h : (keysOf b).Nodup) :
    (keysOf (N.foldl (orphanStep seen) b)).Nodup := by
  induction N generalizing b with
  | nil => exact h
  | cons q qs ih => exact ih _ (nodup_keys_orphanStep seen b q h)

/-- The thread id/bucket map built by `jwz_threads` has pairwise distinct
keys. -/
theorem nodup_keys_jwz (L : List MsgMeta) :
    (keysOf (jwz_threads L)).Nodup := by
  rw [jwz_threads_eq]
  apply nodup_keys_orphan_fold
  exact nodup_keys_foldl_insertRep
    (fun r => collect_inorder (jwzNodes L) ((jwzNodes L).length + 1) r)
    (rootsOf (jwzNodes L)) [] List.nodup_nil

theorem foldl_alExtend_ne {k : String} (Q : List (String × List MsgMeta))
    (h : ∀ q ∈ Q, q.1 ≠ k) (b : List (String × List MsgMeta)) :
    alGet (Q.foldl (fun b p => alExtend b p.1 p.2) b) k = alGet b k := by
  induction Q generalizing b with
  | nil => rfl
  | cons q qs ih =>
    rw [List.foldl_cons,
      ih (fun q2 hq2 => h q2 (List.mem_cons_of_mem _ hq2)),
      alGet_alExtend_ne (fun hc => h q (List.mem_cons_self q qs) hc.symm)]

/-- Folding `alExtend` over a key-nodup pair list transfers each bucket to
a map that did not previously bind its key. -/
theorem foldl_alExtend_get {Q b : List (String × List MsgMeta)} {k : String}
    {v : List MsgMeta} (hQ : (keysOf Q).Nodup) (hget : alGet Q k = some v)
    (hb : alGet b k = none) :
    alGet (Q.foldl (fun b p => alExtend b p.1 p.2) b) k = some v := by
  obtain ⟨pre, post, hsplit, hpre⟩ := alGet_split hget
  subst hsplit
  have hQ2 : keysOf (pre ++ (k, v) :: post)
      = keysOf pre ++ keysOf ((k, v) :: post) := by
    unfold keysOf
    rw [List.map_append]
  rw [hQ2] at hQ
  have h1 : (keysOf ((k, v) :: post)).Nodup := hQ.of_append_right
  have h2 : k ∉ keysOf post := by
    simp only [keysOf, List.map_cons] at h1
    exact (List.nodup_cons.mp h1).1
  have hkpost : ∀ q ∈ post, q.1 ≠ k := by
    intro q hqmem heq
    have hq1 : q.1 ∈ keysOf post := List.mem_map_of_mem _ hqmem
    rw [heq] at hq1
    exact h2 hq1
  rw [List.foldl_append, List.foldl_cons]
  rw [foldl_alExtend_ne post hkpost]
  have hb2 : alGet (pre.foldl (fun b p => alExtend b p.1 p.2) b) k
      = none := by
    rw [foldl_alExtend_ne pre hpre]
    exact hb
  exact alGet_alExtend_none hb2

theorem foldl_alPush_key_ne {k : String} (f : MsgMeta → String)
    (P : List MsgMeta) (h : ∀ a ∈ P, f a ≠ k)
    (b : List (String × List MsgMeta)) :
    alGet (P.foldl (fun b m2 => alPush b (f m2) m2) b) k = alGet b k := by
  induction P generalizing b with
  | nil => rfl
  | cons a as ih =>
    rw [List.foldl_cons,
      ih (fun a2 ha2 => h a2 (List.mem_cons_of_mem _ ha2)),
      alGet_alPush_ne (fun hc => h a (List.mem_cons_self a as) hc.symm)]

/-- The message list sorted by date, phase 0 of `group_into_threads`. -/
def gitSorted (msgs : List MsgMeta) : List MsgMeta :=
  sortByKey (fun m => m.date) msgs

/-- The partition into server-threaded and JWZ-threaded messages. -/
def gitParts (msgs : List MsgMeta) : List MsgMeta × List MsgMeta :=
  (gitSorted msgs).partition (fun m => m.server_thread_id.isSome)

/-- The buckets built from server thread ids. -/
def gitBuckets0 (msgs : List MsgMeta) : List (String × List MsgMeta) :=
  (gitParts msgs).1.foldl
    (fun b m =>
      alPush b
        (match m.server_thread_id with
         | some t => t
         | none => "") m) []

/-- All buckets, after merging in the JWZ threads. -/
def gitBuckets (msgs : List MsgMeta) : List (String × List MsgMeta) :=
  (jwz_threads (gitParts msgs).2).foldl
    (fun b p => alExtend b p.1 p.2) (gitBuckets0 msgs)

theorem group_into_threads_unsorted_eq (msgs : List MsgMeta) :
    group_into_threads_unsorted msgs = (gitBuckets msgs).map thread_of_bucket :=
  rfl

theorem mem_gitParts2 {msgs : List MsgMeta} {a : MsgMeta} :
    a ∈ (gitParts msgs).2 ↔
      a ∈ msgs ∧ a.server_thread_id.isSome = false := by
  unfold gitParts
  rw [List.partition_eq_filter_filter]
  dsimp only
  rw [List.mem_filter]
  constructor
  · rintro ⟨hs, hf⟩
    refine ⟨mem_sortByKey.mp hs, ?_⟩
    simp only [Function.comp_apply, Bool.not_eq_true'] at hf
    exact hf
  · rintro ⟨hs, hf⟩
    refine ⟨mem_sortByKey.mpr hs, ?_⟩
    simp only [Function.comp_apply, Bool.not_eq_true']
    exact hf

theorem mem_gitParts1 {msgs : List MsgMeta} {a : MsgMeta}
    (h : a ∈ (gitParts msgs).1) :
    a ∈ msgs ∧ a.server_thread_id.isSome = true := by
  unfold gitParts at h
  rw [List.partition_eq_filter_filter] at h
  dsimp only at h
  rw [List.mem_filter] at h
  exact ⟨mem_sortByKey.mp h.1, h.2⟩

/-- C7 (amended): a message with no server thread id, a Message-ID `mid`
carried by no other input message, a parent reference to an id `p` that no
input message carries, no input message referring to `mid` as parent, and
no input message with `mid` as server thread id, yields a thread of its
own: `group_into_threads` contains a thread with id `mid` whose message
list is exactly `[m]`. -/
theorem c7_dangling_singleton (msgs : List MsgMeta) (m : MsgMeta)
    (mid p : String)
    (hmem : m ∈ msgs) (hstid : m.server_thread_id = none)
    (hmid : m.message_id = some mid) (hpar : parentRef m = some p)
    (hnop : ∀ a ∈ msgs, a.message_id ≠ some p)
    (huniq : ∀ a ∈ msgs, a.message_id = some mid → a = m)
    (hnochild : ∀ a ∈ msgs, parentRef a ≠ some mid)
    (hnotid : ∀ a ∈ msgs, a.server_thread_id ≠ some mid) :
    ∃ t, t ∈ group_into_threads msgs ∧ t.id = mid ∧ t.messages = [m] := by
  have hmL : m ∈ (gitParts msgs).2 := by
    rw [mem_gitParts2]
    rw [hstid]
    exact ⟨hmem, rfl⟩
  have hsub : ∀ a ∈ (gitParts msgs).2, a ∈ msgs :=
    fun a ha => (mem_gitParts2.mp ha).1
  have hjwz : alGet (jwz_threads (gitParts msgs).2) mid = some [m] :=
    jwz_dangling_singleton (gitParts msgs).2 m mid p hmL hmid hpar
      (fun a ha => hnop a (hsub a ha))
      (fun a ha => huniq a (hsub a ha))
      (fun a ha => hnochild a (hsub a ha))
  have hh : ∀ a ∈ (gitParts msgs).1,
      (match a.server_thread_id with
       | some t => t
       | none => "") ≠ mid := by
    intro a ha
    obtain ⟨haM, hsome⟩ := mem_gitParts1 ha
    cases hst : a.server_thread_id with
    | none =>
      rw [hst] at hsome
      cases hsome
    | some t =>
      dsimp only
      intro heq
      apply hnotid a haM
      rw [hst, heq]
  have hb0 : alGet (gitBuckets0 msgs) mid = none :=
    (foldl_alPush_key_ne _ (gitParts msgs).1 hh []).trans rfl
  have hbuckets : alGet (gitBuckets msgs) mid = some [m] :=
    foldl_alExtend_get (nodup_keys_jwz (gitParts msgs).2) hjwz hb0
  have hmemb : (mid, [m]) ∈ gitBuckets msgs := alGet_mem hbuckets
  have htmem : thread_of_bucket (mid, [m]) ∈ group_into_threads_unsorted msgs := by
    rw [group_into_threads_unsorted_eq]
    exact List.mem_map_of_mem _ hmemb
  refine ⟨thread_of_bucket (mid, [m]), ?_, rfl, rfl⟩
  unfold group_into_threads
  rw [List.mem_reverse]
  exact mem_sortByKey.mpr htmem

/-- A message whose sole parent reference names an id absent from the
input. -/
def danglingMsg : MsgMeta :=
  mkMsg "9" 7 (some "<m@x>") none ["<gone@x>"] none "Dangling"

theorem c7_dangling_singleton_witness :
    ∃ t, t ∈ group_into_threads [danglingMsg] ∧ t.id = "<m@x>" ∧
      t.messages = [danglingMsg] :=
  c7_dangling_singleton [danglingMsg] danglingMsg "<m@x>" "<gone@x>"
    (by decide) (by decide) (by decide) (by decide)
    (by decide) (by decide) (by decide) (by decide)

end Mailapp
